import Mathlib

set_option maxHeartbeats 1000000
set_option maxRecDepth 8000

/-
Verification development for the adcp-core recipe materialization pipeline.

Each definition is a shallow embedding of the corresponding Go function,
keeping the source's name where Lean allows it.  External effects (shell
execution, HTTP fetches, file reads) are threaded through an explicit
environment record, so that every embedded operation is a pure function of
that environment.
-/

namespace Adcp

/-! ## String utilities mirroring the Go standard library -/

/-- Substring test mirroring Go strings.Contains: true when needle occurs
contiguously in hay (an empty needle always matches). -/
def listContains (hay needle : List Char) : Bool :=
  match hay with
  | [] => needle.isEmpty
  | c :: t => needle.isPrefixOf (c :: t) || listContains t needle

/-- Go strings.Contains on strings. -/
def goContains (s sub : String) : Bool := listContains s.data sub.data

/-- Go strings.TrimPrefix: drop a leading occurrence of pre, otherwise
return the string unchanged. -/
def trimPref (s pre : String) : String :=
  if pre.data.isPrefixOf s.data then String.mk (s.data.drop pre.data.length) else s

/-- Split off the portion of a character list before the first occurrence of
sep, together with the remainder after that separator; none when sep does
not occur. -/
def breakAtChar (sep : Char) : List Char → Option (List Char × List Char)
  | [] => none
  | c :: t =>
    if c = sep then some ([], t)
    else
      match breakAtChar sep t with
      | none => none
      | some (a, b) => some (c :: a, b)

/-- Go strings.SplitN with a single-character separator: at most n parts,
the final part keeping any remaining separators. -/
def splitNChar (sep : Char) : Nat → List Char → List (List Char)
  | 0, _ => []
  | 1, cs => [cs]
  | n + 2, cs =>
    match breakAtChar sep cs with
    | none => [cs]
    | some (a, b) => a :: splitNChar sep (n + 1) b

/-- Join character lists with a single-character separator, mirroring Go
strings.Join. -/
def joinChar (sep : Char) : List (List Char) → List Char
  | [] => []
  | [x] => x
  | x :: y :: t => x ++ sep :: joinChar sep (y :: t)

/-! ## The settings merge of the claude plugin (mergeUniqueStrings) -/

/-- Loop body shared by the two passes of mergeUniqueStrings: the Go code
keeps a seen set (a map from string to bool) and a result slice, adding each
item whose string has not been seen yet.  The seen set is modelled by a list
queried through membership. -/
def mergeLoop : List String → List String → List String → List String × List String
  | seen, acc, [] => (seen, acc)
  | seen, acc, s :: rest =>
    if s ∈ seen then mergeLoop seen acc rest
    else mergeLoop (s :: seen) (acc ++ [s]) rest

/-- Embedding of mergeUniqueStrings from the claude plugin: first pass adds
the existing items, second pass adds the new items that are not duplicates. -/
def mergeUniqueStrings (existing fresh : List String) : List String :=
  let p := mergeLoop [] [] existing
  (mergeLoop p.1 p.2 fresh).2

/-- First-seen-wins deduplication relative to an initial seen set, written
to follow the words of the specification for comparison with the code. -/
def dedupFirstAux : List String → List String → List String
  | _, [] => []
  | seen, s :: rest =>
    if s ∈ seen then dedupFirstAux seen rest
    else s :: dedupFirstAux (s :: seen) rest

/-- First-seen-wins deduplication of a list, following the specification's
words: existing order preserved, a string kept at its first occurrence. -/
def dedupFirst (l : List String) : List String := dedupFirstAux [] l

/-- Final seen set of one merge pass. -/
def mergeSeen : List String → List String → List String
  | seen, [] => seen
  | seen, s :: rest =>
    if s ∈ seen then mergeSeen seen rest else mergeSeen (s :: seen) rest

/-! ## GitHub URL conversion (adcp/utils/github.go, ConvertToRawURL) -/

/-- Oneof variants of the GitVersion message; unset models a version message
whose oneof field is not populated. -/
inductive GitVersion where
  | tag (s : String)
  | commit (s : String)
  | unset
deriving DecidableEq, Repr

/-- The scheme and host stripping performed by ConvertToRawURL before
splitting: TrimPrefix https, then http, then the github.com host. -/
def strippedPath (githubPath : String) : String :=
  trimPref (trimPref (trimPref githubPath "https://") "http://") "github.com/"

/-- Ref selection of ConvertToRawURL when no blob or tree segment is given:
tag or commit from the version descriptor, defaulting to the main branch. -/
def refFromVersion (version : Option GitVersion) : String :=
  match version with
  | some (.tag t) => t
  | some (.commit c) => c
  | _ => "main"

/-- Embedding of utils.ConvertToRawURL: raw or non-github paths pass through
unchanged, otherwise the path is stripped, split on slashes into at most five
segments and rebuilt as a raw.githubusercontent.com URL. -/
def ConvertToRawURL (githubPath : String) (version : Option GitVersion) :
    Except String String :=
  if goContains githubPath "raw.githubusercontent.com"
      || !goContains githubPath "github.com" then
    .ok githubPath
  else
    let stripped := strippedPath githubPath
    let parts := splitNChar '/' 5 stripped.data
    if parts.length ≥ 4
        ∧ (parts.getD 2 [] = "blob".data ∨ parts.getD 2 [] = "tree".data) then
      if parts.length < 5 then
        .error ("invalid github path format: " ++ stripped)
      else
        .ok ("https://raw.githubusercontent.com/"
          ++ String.mk (parts.getD 0 []) ++ "/" ++ String.mk (parts.getD 1 [])
          ++ "/" ++ String.mk (parts.getD 3 []) ++ "/" ++ String.mk (parts.getD 4 []))
    else if parts.length ≥ 3 then
      .ok ("https://raw.githubusercontent.com/"
        ++ String.mk (parts.getD 0 []) ++ "/" ++ String.mk (parts.getD 1 [])
        ++ "/" ++ refFromVersion version
        ++ "/" ++ String.mk (joinChar '/' (parts.drop 2)))
    else
      .error ("invalid github path format: " ++ stripped)

/-! ## JSON values, rendering and parsing

The settings and MCP mergers read possibly pre-existing JSON documents with
encoding/json and rewrite them with two-space MarshalIndent.  The document
syntax is embedded here: JVal is the parsed value tree, renderVal emulates
MarshalIndent (struct-driven rendering is defined with the individual
mergers), and parseVal is a fuel-indexed recursive-descent parser for the
syntax accepted by encoding/json. -/

/-- Parsed JSON value.  Numbers keep their lexeme: no embedded decoder ever
accepts a number where the Go structs expect strings, lists or objects. -/
inductive JVal where
  | null
  | jbool (b : Bool)
  | jnum (lexeme : String)
  | jstr (s : String)
  | jarr (items : List JVal)
  | jobj (fields : List (String × JVal))

/-- Lowercase hexadecimal digit, as emitted by the Go JSON encoder. -/
def hexDigit (n : Nat) : Char :=
  if n < 10 then Char.ofNat (48 + n) else Char.ofNat (87 + n)

/-- Escape one character the way the Go JSON encoder does with its default
HTML escaping: quote, backslash, newline, carriage return and tab get
two-character escapes, other control characters and the HTML-sensitive
characters become lowercase unicode escapes, as do the line and paragraph
separators. -/
def escapeChar (c : Char) : List Char :=
  if c = '"' then ['\\', '"']
  else if c = '\\' then ['\\', '\\']
  else if c = '\n' then ['\\', 'n']
  else if c = '\r' then ['\\', 'r']
  else if c = '\t' then ['\\', 't']
  else if c = '<' then ['\\', 'u', '0', '0', '3', 'c']
  else if c = '>' then ['\\', 'u', '0', '0', '3', 'e']
  else if c = '&' then ['\\', 'u', '0', '0', '2', '6']
  else if c.toNat < 0x20 then
    ['\\', 'u', '0', '0', hexDigit (c.toNat / 16), hexDigit (c.toNat % 16)]
  else if c.toNat = 0x2028 then ['\\', 'u', '2', '0', '2', '8']
  else if c.toNat = 0x2029 then ['\\', 'u', '2', '0', '2', '9']
  else [c]

/-- Escaped body of a JSON string literal (without the quotes). -/
def escBody (s : String) : List Char :=
  s.data.foldr (fun c acc => escapeChar c ++ acc) []

/-- A complete JSON string literal for s. -/
def escapeString (s : String) : List Char :=
  '"' :: escBody s ++ ['"']

/-- Indentation emitted by MarshalIndent with a two-space indent at the
given depth. -/
def indentChars : Nat → List Char
  | 0 => []
  | n + 1 => ' ' :: ' ' :: indentChars n

/-- Remaining object fields after the first, each preceded by a comma,
newline and indent, the values already rendered at the deeper level. -/
def renderMoreFields (depth : Nat) : List (String × List Char) → List Char
  | [] => []
  | f :: fs =>
    ',' :: '\n' :: indentChars (depth + 1)
      ++ escapeString f.1 ++ ':' :: ' ' :: f.2 ++ renderMoreFields depth fs

/-- Rendering of a JSON object from pre-rendered member values, exactly as
MarshalIndent with a two-space indent lays it out: an empty object is
inline, a non-empty one puts every field on its own deeper-indented line. -/
def renderObjFromChars (depth : Nat) : List (String × List Char) → List Char
  | [] => ['\x7b', '\x7d']
  | f :: fs =>
    '\x7b' :: '\n' :: indentChars (depth + 1)
      ++ escapeString f.1 ++ ':' :: ' ' :: f.2 ++ renderMoreFields depth fs
      ++ '\n' :: indentChars depth ++ ['\x7d']

/-- Remaining array items after the first, each preceded by a comma, newline
and indent. -/
def renderMoreItems (depth : Nat) : List (List Char) → List Char
  | [] => []
  | v :: vs =>
    ',' :: '\n' :: indentChars (depth + 1) ++ v ++ renderMoreItems depth vs

/-- Rendering of a JSON array from pre-rendered items, as MarshalIndent
lays it out. -/
def renderArrFromChars (depth : Nat) : List (List Char) → List Char
  | [] => ['[', ']']
  | v :: vs =>
    '[' :: '\n' :: indentChars (depth + 1)
      ++ v ++ renderMoreItems depth vs
      ++ '\n' :: indentChars depth ++ [']']

/-- Rendering of a JSON array of strings. -/
def renderStrList (depth : Nat) (xs : List String) : List Char :=
  renderArrFromChars depth (xs.map escapeString)

/-- Rendering of a JSON object with string members (a Go map[string]string,
already in sorted key order). -/
def renderStrMap (depth : Nat) (kvs : List (String × String)) : List Char :=
  renderObjFromChars depth (kvs.map (fun p => (p.1, escapeString p.2)))

/-- Whitespace accepted between JSON tokens (as in the Go scanner). -/
def isJsonWs (c : Char) : Bool :=
  c = ' ' || c = '\t' || c = '\n' || c = '\r'

/-- Skip insignificant whitespace. -/
def skipWs : List Char → List Char
  | [] => []
  | c :: t => if isJsonWs c then skipWs t else c :: t

/-- Value of one hexadecimal digit. -/
def hexVal (c : Char) : Option Nat :=
  if '0' ≤ c ∧ c ≤ '9' then some (c.toNat - 48)
  else if 'a' ≤ c ∧ c ≤ 'f' then some (c.toNat - 87)
  else if 'A' ≤ c ∧ c ≤ 'F' then some (c.toNat - 55)
  else none

/-- First pass over a JSON string literal body after the opening quote,
following the Go scanner: plain characters must not be control characters,
only the defined escapes are accepted, and every decoded unit is kept as a
raw code point (a unicode escape may denote an unpaired surrogate at this
stage). -/
def parseStringRaw : List Char → Option (List Nat × List Char)
  | [] => none
  | c :: t =>
    if c = '"' then some ([], t)
    else if c = '\\' then
      match t with
      | [] => none
      | e :: t2 =>
        if e = 'u' then
          match t2 with
          | a :: b :: c2 :: d :: t3 =>
            (match hexVal a, hexVal b, hexVal c2, hexVal d with
            | some ha, some hb, some hc, some hd =>
              (parseStringRaw t3).map (fun p =>
                ((((ha * 16 + hb) * 16 + hc) * 16 + hd) :: p.1, p.2))
            | _, _, _, _ => none)
          | _ => none
        else if e = '"' then (parseStringRaw t2).map (fun p => (0x22 :: p.1, p.2))
        else if e = '\\' then (parseStringRaw t2).map (fun p => (0x5C :: p.1, p.2))
        else if e = '/' then (parseStringRaw t2).map (fun p => (0x2F :: p.1, p.2))
        else if e = 'b' then (parseStringRaw t2).map (fun p => (0x08 :: p.1, p.2))
        else if e = 'f' then (parseStringRaw t2).map (fun p => (0x0C :: p.1, p.2))
        else if e = 'n' then (parseStringRaw t2).map (fun p => (0x0A :: p.1, p.2))
        else if e = 'r' then (parseStringRaw t2).map (fun p => (0x0D :: p.1, p.2))
        else if e = 't' then (parseStringRaw t2).map (fun p => (0x09 :: p.1, p.2))
        else none
    else if c.toNat < 0x20 then none
    else (parseStringRaw t).map (fun p => (c.toNat :: p.1, p.2))

/-- Second pass, following the Go unquoter: a high surrogate followed by a
low surrogate combines into one code point, any unpaired surrogate becomes
the replacement character, and the code after an uncombined high surrogate
is reconsidered on its own. -/
def combineSurrogates : List Nat → List Char
  | [] => []
  | [n] =>
    if 0xD800 ≤ n ∧ n < 0xE000 then ['\uFFFD'] else [Char.ofNat n]
  | n :: m :: rest2 =>
    if 0xD800 ≤ n ∧ n < 0xDC00 then
      if 0xDC00 ≤ m ∧ m < 0xE000 then
        Char.ofNat (0x10000 + (n - 0xD800) * 0x400 + (m - 0xDC00))
          :: combineSurrogates rest2
      else '\uFFFD' :: combineSurrogates (m :: rest2)
    else if 0xDC00 ≤ n ∧ n < 0xE000 then
      '\uFFFD' :: combineSurrogates (m :: rest2)
    else
      Char.ofNat n :: combineSurrogates (m :: rest2)

/-- Body of a JSON string literal after the opening quote: scanning and
surrogate combination composed. -/
def parseStringBody (cs : List Char) : Option (List Char × List Char) :=
  (parseStringRaw cs).map (fun p => (combineSurrogates p.1, p.2))

/-- Longest leading run of decimal digits. -/
def takeDigits : List Char → List Char × List Char
  | [] => ([], [])
  | c :: t =>
    if '0' ≤ c ∧ c ≤ '9' then
      let p := takeDigits t
      (c :: p.1, p.2)
    else ([], c :: t)

/-- Fraction and exponent suffix of a JSON number. -/
def parseNumTail (cs : List Char) : Option (List Char × List Char) :=
  let frac :=
    match cs with
    | '.' :: t =>
      match takeDigits t with
      | ([], _) => none
      | (ds, r) => some ('.' :: ds, r)
    | _ => some ([], cs)
  match frac with
  | none => none
  | some (f, r) =>
    match r with
    | 'e' :: t =>
      (match t with
      | '+' :: t2 =>
        (match takeDigits t2 with
        | ([], _) => none
        | (ds, r2) => some (f ++ 'e' :: '+' :: ds, r2))
      | '-' :: t2 =>
        (match takeDigits t2 with
        | ([], _) => none
        | (ds, r2) => some (f ++ 'e' :: '-' :: ds, r2))
      | _ =>
        match takeDigits t with
        | ([], _) => none
        | (ds, r2) => some (f ++ 'e' :: ds, r2))
    | 'E' :: t =>
      (match t with
      | '+' :: t2 =>
        (match takeDigits t2 with
        | ([], _) => none
        | (ds, r2) => some (f ++ 'E' :: '+' :: ds, r2))
      | '-' :: t2 =>
        (match takeDigits t2 with
        | ([], _) => none
        | (ds, r2) => some (f ++ 'E' :: '-' :: ds, r2))
      | _ =>
        match takeDigits t with
        | ([], _) => none
        | (ds, r2) => some (f ++ 'E' :: ds, r2))
    | _ => some (f, r)

/-- JSON number lexeme: optional minus, integer part without leading zeros,
optional fraction and exponent, as in the Go scanner. -/
def parseNumber (cs : List Char) : Option (List Char × List Char) :=
  let body : List Char → Option (List Char × List Char) := fun cs₂ =>
    match cs₂ with
    | '0' :: t => (parseNumTail t).map (fun p => ('0' :: p.1, p.2))
    | c :: t =>
      if '1' ≤ c ∧ c ≤ '9' then
        match takeDigits t with
        | (ds, r) => (parseNumTail r).map (fun p => (c :: ds ++ p.1, p.2))
      else none
    | [] => none
  match cs with
  | '-' :: t => (body t).map (fun p => ('-' :: p.1, p.2))
  | _ => body cs

mutual

/-- Fuel-indexed JSON value parser over the syntax accepted by the Go
scanner; returns the value and the unconsumed input. -/
def parseVal : Nat → List Char → Option (JVal × List Char)
  | 0, _ => none
  | fuel + 1, cs =>
    match skipWs cs with
    | [] => none
    | 'n' :: t =>
      if ['u', 'l', 'l'].isPrefixOf t then some (.null, t.drop 3) else none
    | 't' :: t =>
      if ['r', 'u', 'e'].isPrefixOf t then some (.jbool true, t.drop 3) else none
    | 'f' :: t =>
      if ['a', 'l', 's', 'e'].isPrefixOf t then some (.jbool false, t.drop 4) else none
    | '"' :: t =>
      (parseStringBody t).map (fun p => (.jstr (String.mk p.1), p.2))
    | '[' :: t =>
      (match skipWs t with
      | ']' :: t2 => some (.jarr [], t2)
      | t' =>
        match parseVal fuel t' with
        | none => none
        | some (v, r) =>
          match parseElems fuel r with
          | none => none
          | some (vs, r2) => some (.jarr (v :: vs), r2))
    | c :: t =>
      if c = '\x7b' then
        match skipWs t with
        | '"' :: t2 =>
          (match parseStringBody t2 with
          | none => none
          | some (k, r) =>
            match skipWs r with
            | ':' :: r2 =>
              (match parseVal fuel r2 with
              | none => none
              | some (v, r3) =>
                match parseFields fuel r3 with
                | none => none
                | some (fs, r4) => some (.jobj ((String.mk k, v) :: fs), r4))
            | _ => none)
        | c2 :: t2 => if c2 = '\x7d' then some (.jobj [], t2) else none
        | [] => none
      else
        (parseNumber (c :: t)).map (fun p => (.jnum (String.mk p.1), p.2))

/-- Remaining array items: a comma followed by a value, or the closing
bracket. -/
def parseElems : Nat → List Char → Option (List JVal × List Char)
  | 0, _ => none
  | fuel + 1, cs =>
    match skipWs cs with
    | ',' :: t =>
      (match parseVal fuel t with
      | none => none
      | some (v, r) =>
        match parseElems fuel r with
        | none => none
        | some (vs, r2) => some (v :: vs, r2))
    | ']' :: t => some ([], t)
    | _ => none

/-- Remaining object fields: a comma followed by a quoted key, colon and
value, or the closing brace. -/
def parseFields : Nat → List Char → Option (List (String × JVal) × List Char)
  | 0, _ => none
  | fuel + 1, cs =>
    match skipWs cs with
    | ',' :: t =>
      (match skipWs t with
      | '"' :: t2 =>
        (match parseStringBody t2 with
        | none => none
        | some (k, r) =>
          match skipWs r with
          | ':' :: r2 =>
            (match parseVal fuel r2 with
            | none => none
            | some (v, r3) =>
              match parseFields fuel r3 with
              | none => none
              | some (fs, r4) => some ((String.mk k, v) :: fs, r4))
          | _ => none)
      | _ => none)
    | c :: t => if c = '\x7d' then some ([], t) else none
    | [] => none

end

/-- Parse a whole document the way encoding/json Unmarshal accepts it: one
value with only whitespace around it. -/
def jsonParse (s : String) : Option JVal :=
  match parseVal (s.data.length + 1) s.data with
  | some (v, rest) => if skipWs rest = [] then some v else none
  | none => none

/-! ## Association lists standing for Go string-keyed maps

A Go map has no order of its own and MarshalIndent emits its keys in sorted
byte order, which for valid UTF-8 equals code-point order.  A string-keyed
map is therefore embedded as an association list kept in strictly sorted key
order: every map is built through setKey, which inserts in order and
overwrites an existing key, so the representation is canonical and rendering
it in list order is exactly the sorted rendering Go produces. -/

/-- Strict lexicographic order on character lists (byte order of the
corresponding UTF-8 strings). -/
def charListLt : List Char → List Char → Bool
  | [], [] => false
  | [], _ :: _ => true
  | _ :: _, [] => false
  | a :: as, b :: bs => if a < b then true else if b < a then false else charListLt as bs

/-- Sorting order of Go map keys. -/
def keyLt (a b : String) : Bool := charListLt a.data b.data

/-- Map update: overwrite the entry for k or insert it at its sorted
position. -/
def setKey {α : Type} (k : String) (v : α) : List (String × α) → List (String × α)
  | [] => [(k, v)]
  | (k2, v2) :: t =>
    if k = k2 then (k, v) :: t
    else if keyLt k k2 then (k, v) :: (k2, v2) :: t
    else (k2, v2) :: setKey k v t

/-- Map lookup. -/
def getKey {α : Type} (k : String) : List (String × α) → Option α
  | [] => none
  | (k2, v2) :: t => if k = k2 then some v2 else getKey k t

/-! ## Unicode helpers for field matching and strings.Fields -/

/-- ASCII lower-casing of a character, standing in for the simple case
folding that Go uses to match JSON keys to struct field names
case-insensitively (the embedded field names are all ASCII). -/
def foldChar (c : Char) : Char :=
  if 'A' ≤ c ∧ c ≤ 'Z' then Char.ofNat (c.toNat + 32) else c

/-- Case-insensitive field-name comparison used by encoding/json. -/
def foldEq (a b : String) : Bool := a.data.map foldChar == b.data.map foldChar

/-- Unicode white space as tested by unicode.IsSpace, which drives
strings.Fields. -/
def goIsSpace (c : Char) : Bool :=
  c = ' ' || c = '\t' || c = '\n' || c = '\x0b' || c = '\x0c' || c = '\r'
  || c.toNat = 0x85 || c.toNat = 0xA0 || c.toNat = 0x1680
  || (0x2000 ≤ c.toNat && c.toNat ≤ 0x200A)
  || c.toNat = 0x2028 || c.toNat = 0x2029 || c.toNat = 0x202F
  || c.toNat = 0x205F || c.toNat = 0x3000

/-- Splitting into maximal runs of non-space characters; the fuel is an
upper bound on the number of characters left and never runs out when
initialised with the input length. -/
def fieldsAux : Nat → List Char → List (List Char)
  | 0, _ => []
  | _ + 1, [] => []
  | n + 1, c :: t =>
    if goIsSpace c then fieldsAux n t
    else (c :: t.takeWhile (fun x => !goIsSpace x))
      :: fieldsAux n (t.dropWhile (fun x => !goIsSpace x))

/-- Go strings.Fields. -/
def goFields (s : String) : List String := (fieldsAux s.data.length s.data).map String.mk

/-! ## MCP server merging (core/plugins/shared/ide.go)

The mcpServerConfig and mcpJson structs, their MarshalIndent rendering and
their encoding/json decoding, and buildMcpJSON itself. -/

/-- The mcpServerConfig struct: all five fields are tagged omitempty. -/
structure McpServerConfig where
  type : String
  command : String
  args : List String
  env : List (String × String)
  url : String
deriving DecidableEq, Repr

/-- Zero value of mcpServerConfig. -/
def zeroConfig : McpServerConfig := ⟨"", "", [], [], ""⟩

/-- The mcpJson struct: the server map is not tagged omitempty, so it is
always rendered. -/
structure McpJson where
  mcpServers : List (String × McpServerConfig)
deriving DecidableEq, Repr

/-- JSON fields emitted for one mcpServerConfig, in struct order, each
omitted when empty as its omitempty tag requires, values rendered one level
deeper. -/
def configFields (depth : Nat) (c : McpServerConfig) : List (String × List Char) :=
  (if c.type = "" then [] else [("type", escapeString c.type)])
  ++ (if c.command = "" then [] else [("command", escapeString c.command)])
  ++ (if c.args.isEmpty then [] else [("args", renderStrList (depth + 1) c.args)])
  ++ (if c.env.isEmpty then [] else [("env", renderStrMap (depth + 1) c.env)])
  ++ (if c.url = "" then [] else [("url", escapeString c.url)])

/-- Rendering of one mcpServerConfig as an object. -/
def renderConfig (depth : Nat) (c : McpServerConfig) : List Char :=
  renderObjFromChars depth (configFields depth c)

/-- MarshalIndent of an mcpJson struct with two-space indentation. -/
def marshalMcpJson (m : McpJson) : String :=
  String.mk (renderObjFromChars 0 [("mcpServers",
    renderObjFromChars 1 (m.mcpServers.map (fun p => (p.1, renderConfig 2 p.2))))])

/-- Decoding one JSON field into an mcpServerConfig, following
encoding/json: strings replace string fields, arrays of strings replace the
args slice, objects of strings replace the env map, null clears slices and
maps and leaves strings untouched, anything else is a type error. -/
def decodeConfigField (c : McpServerConfig) (k : String) (v : JVal) :
    Except String McpServerConfig :=
  if foldEq k "type" then
    match v with
    | .jstr s => .ok { c with type := s }
    | .null => .ok c
    | _ => .error "cannot unmarshal value into string field type"
  else if foldEq k "command" then
    match v with
    | .jstr s => .ok { c with command := s }
    | .null => .ok c
    | _ => .error "cannot unmarshal value into string field command"
  else if foldEq k "args" then
    match v with
    | .jarr items =>
      (items.mapM (fun it =>
        match it with
        | JVal.jstr s => Except.ok s
        | JVal.null => Except.ok ""
        | _ => Except.error "cannot unmarshal element into string")).map
        (fun args => { c with args := args })
    | .null => .ok { c with args := [] }
    | _ => .error "cannot unmarshal value into slice field args"
  else if foldEq k "env" then
    match v with
    | .jobj fields =>
      (fields.foldlM (fun (acc : List (String × String)) (f : String × JVal) =>
        match f.2 with
        | JVal.jstr s => Except.ok (setKey f.1 s acc)
        | JVal.null => Except.ok (setKey f.1 "" acc)
        | _ => Except.error "cannot unmarshal element into string") c.env).map
        (fun env => { c with env := env })
    | .null => .ok { c with env := [] }
    | _ => .error "cannot unmarshal value into map field env"
  else if foldEq k "url" then
    match v with
    | .jstr s => .ok { c with url := s }
    | .null => .ok c
    | _ => .error "cannot unmarshal value into string field url"
  else
    .ok c

/-- Decoding a JSON value into an mcpServerConfig. -/
def decodeConfig : JVal → Except String McpServerConfig
  | .null => .ok zeroConfig
  | .jobj fields =>
    fields.foldlM (fun c f => decodeConfigField c f.1 f.2) zeroConfig
  | _ => .error "cannot unmarshal value into mcpServerConfig"

/-- Decoding a JSON object into the server map, entry by entry in document
order with later duplicates overwriting. -/
def decodeServers (m : List (String × McpServerConfig)) :
    List (String × JVal) → Except String (List (String × McpServerConfig))
  | [] => .ok m
  | (k, v) :: t =>
    match decodeConfig v with
    | .error e => .error e
    | .ok cfg => decodeServers (setKey k cfg m) t

/-- Decoding a JSON document into the mcpJson struct: null leaves the zero
struct, an object is scanned field by field with unknown fields ignored,
anything else is a type error. -/
def decodeMcpJson : JVal → Except String McpJson
  | .null => .ok ⟨[]⟩
  | .jobj fields =>
    let rec go (m : McpJson) : List (String × JVal) → Except String McpJson
      | [] => .ok m
      | (k, v) :: t =>
        if foldEq k "mcpServers" then
          match v with
          | .null => go ⟨[]⟩ t
          | .jobj sfields =>
            (match decodeServers m.mcpServers sfields with
            | .error e => .error e
            | .ok servers => go ⟨servers⟩ t)
          | _ => .error "cannot unmarshal value into map field mcpServers"
        else go m t
    go ⟨[]⟩ fields
  | _ => .error "cannot unmarshal value into mcpJson"

/-- Unmarshal of an mcpJson document from a string. -/
def unmarshalMcpJson (s : String) : Except String McpJson :=
  match jsonParse s with
  | none => .error "invalid json syntax"
  | some j => decodeMcpJson j

/-- Oneof variants of an McpServer message; http carries the url of the
nested HttpMcpServer, stdio the command of the nested StdioMcpServer, and
unsetSrv models an empty oneof. -/
inductive McpServerSpec where
  | http (url : String)
  | stdio (command : String)
  | unsetSrv
deriving DecidableEq, Repr

/-- The Mcp message: a name-to-server map whose entries may be nil.  The
Go map iterates in no particular order; the list order here is the
deterministic stand-in, and the resulting merged map does not depend on it
because distinct keys are written. -/
structure Mcp where
  servers : List (String × Option McpServerSpec)
deriving DecidableEq, Repr

/-- Parsing step of buildMcpJSON: an empty file is not parsed, malformed
content starts fresh, and the nil-map guard is an identity on the list
model. -/
def parseMcpOrEmpty (existingContent : String) : McpJson :=
  if existingContent ≠ "" then
    match unmarshalMcpJson existingContent with
    | .ok m => m
    | .error _ => ⟨[]⟩
  else ⟨[]⟩

/-- The config built for an Http server: type http plus the url. -/
def httpServerConfig (url : String) : McpServerConfig :=
  { zeroConfig with type := "http", url := url }

/-- The config built for a Stdio server: type stdio, the first whitespace
field of the command, the remaining fields as args and an always-set empty
env map. -/
def stdioServerConfig (command : String) : McpServerConfig :=
  if command ≠ "" then
    let parts := goFields command
    if parts.length > 0 then
      { zeroConfig with
        type := "stdio"
        command := parts.headD ""
        args := (if parts.length > 1 then parts.tail else [])
        env := [] }
    else { zeroConfig with type := "stdio", env := [] }
  else { zeroConfig with type := "stdio", env := [] }

/-- One iteration of the server loop in buildMcpJSON: nil and unset servers
are skipped, an Http or Stdio server is translated to its config, and a
server is kept when at least a type, url or command was set. -/
def mergeStep (acc : List (String × McpServerConfig))
    (p : String × Option McpServerSpec) : List (String × McpServerConfig) :=
  match p.2 with
  | none => acc
  | some .unsetSrv => acc
  | some (.http url) =>
    let srv : McpServerConfig := httpServerConfig url
    if srv.type ≠ "" ∨ srv.url ≠ "" ∨ srv.command ≠ "" then setKey p.1 srv acc else acc
  | some (.stdio command) =>
    let srv : McpServerConfig := stdioServerConfig command
    if srv.type ≠ "" ∨ srv.url ≠ "" ∨ srv.command ≠ "" then setKey p.1 srv acc else acc

/-- The server loop of buildMcpJSON over the new spec's servers. -/
def mergeServers (servers : List (String × Option McpServerSpec))
    (acc : List (String × McpServerConfig)) : List (String × McpServerConfig) :=
  servers.foldl mergeStep acc

/-- Embedding of buildMcpJSON: parse the existing content if any (malformed
content starts fresh), fold the new servers over the map with the
per-variant translation, and re-marshal with two-space indentation. -/
def buildMcpJSON (mcp : Option Mcp) (existingContent : String) : Except String String :=
  match mcp with
  | none => .error "mcp cannot be nil"
  | some mcp =>
    let cm : McpJson := parseMcpOrEmpty existingContent
    let cm : McpJson := ⟨mergeServers mcp.servers cm.mcpServers⟩
    .ok (marshalMcpJson cm)

/-! ## Claude settings building (core/plugins/claude/ide.go) -/

/-- Oneof variants of an OperationPermission message. -/
inductive OperationPermission where
  | bash (s : String)
  | read (s : String)
  | write (s : String)
  | unsetPerm
deriving DecidableEq, Repr

/-- The Permissions message: allow and deny lists whose entries may be nil
pointers. -/
structure Permissions where
  allow : List (Option OperationPermission)
  deny : List (Option OperationPermission)
deriving DecidableEq, Repr

/-- Embedding of formatPermission; the default branch returns the empty
string. -/
def formatPermission : OperationPermission → String
  | .bash s => "Bash(" ++ s ++ ")"
  | .read s => "Read(" ++ s ++ ")"
  | .write s => "Write(" ++ s ++ ")"
  | .unsetPerm => ""

/-- One loop of buildClaudeSettingsJSON over a permission list: nil entries
and entries without a set variant are skipped, the rest are formatted. -/
def permStrings (l : List (Option OperationPermission)) : List String :=
  l.foldl (fun acc p =>
    match p with
    | some .unsetPerm => acc
    | some op => acc ++ [formatPermission op]
    | none => acc) []

/-- The nested permissions struct of claudeSettings; every field is tagged
omitempty. -/
structure ClaudePermissions where
  allow : List String
  deny : List String
  ask : List String
  defaultMode : String
deriving DecidableEq, Repr

/-- The claudeSettings struct; the permissions field has no omitempty, the
two outer fields do. -/
structure ClaudeSettings where
  permissions : ClaudePermissions
  enabledMcpjsonServers : List String
  enableAllProjectMcpServers : Bool
deriving DecidableEq, Repr

/-- Zero value of claudeSettings. -/
def zeroSettings : ClaudeSettings := ⟨⟨[], [], [], ""⟩, [], false⟩

/-- JSON fields emitted for the nested permissions struct, in struct order,
each omitted when empty as its omitempty tag requires. -/
def permissionsFields (p : ClaudePermissions) : List (String × List Char) :=
  (if p.allow.isEmpty then [] else [("allow", renderStrList 2 p.allow)])
  ++ (if p.deny.isEmpty then [] else [("deny", renderStrList 2 p.deny)])
  ++ (if p.ask.isEmpty then [] else [("ask", renderStrList 2 p.ask)])
  ++ (if p.defaultMode = "" then [] else [("defaultMode", escapeString p.defaultMode)])

/-- JSON fields emitted for a claudeSettings struct, in struct order: the
permissions object is always present, the other fields are omitted when
empty as their omitempty tags require. -/
def settingsFields (s : ClaudeSettings) : List (String × List Char) :=
  [("permissions", renderObjFromChars 1 (permissionsFields s.permissions))]
  ++ (if s.enabledMcpjsonServers.isEmpty then []
    else [("enabledMcpjsonServers", renderStrList 1 s.enabledMcpjsonServers)])
  ++ (if s.enableAllProjectMcpServers then
    [("enableAllProjectMcpServers", ['t', 'r', 'u', 'e'])] else [])

/-- MarshalIndent of a claudeSettings struct with two-space indentation. -/
def marshalSettings (s : ClaudeSettings) : String :=
  String.mk (renderObjFromChars 0 (settingsFields s))

/-- Decoding a JSON array into a string list, replacing the previous slice;
null elements leave the zero string. -/
def decodeStringList (items : List JVal) : Except String (List String) :=
  items.mapM (fun it =>
    match it with
    | JVal.jstr s => Except.ok s
    | JVal.null => Except.ok ""
    | _ => Except.error "cannot unmarshal element into string")

/-- Decoding one field of the nested permissions struct. -/
def decodePermsField (p : ClaudePermissions) (k : String) (v : JVal) :
    Except String ClaudePermissions :=
  if foldEq k "allow" then
    match v with
    | .jarr items => (decodeStringList items).map (fun l => { p with allow := l })
    | .null => .ok { p with allow := [] }
    | _ => .error "cannot unmarshal value into slice field allow"
  else if foldEq k "deny" then
    match v with
    | .jarr items => (decodeStringList items).map (fun l => { p with deny := l })
    | .null => .ok { p with deny := [] }
    | _ => .error "cannot unmarshal value into slice field deny"
  else if foldEq k "ask" then
    match v with
    | .jarr items => (decodeStringList items).map (fun l => { p with ask := l })
    | .null => .ok { p with ask := [] }
    | _ => .error "cannot unmarshal value into slice field ask"
  else if foldEq k "defaultMode" then
    match v with
    | .jstr s => .ok { p with defaultMode := s }
    | .null => .ok p
    | _ => .error "cannot unmarshal value into string field defaultMode"
  else
    .ok p

/-- Decoding a JSON value into the nested permissions struct, keeping the
current contents for null and merging field by field for objects. -/
def decodePerms (p : ClaudePermissions) : JVal → Except String ClaudePermissions
  | .null => .ok p
  | .jobj fields => fields.foldlM (fun acc f => decodePermsField acc f.1 f.2) p
  | _ => .error "cannot unmarshal value into struct field permissions"

/-- Decoding one field of claudeSettings. -/
def decodeSettingsField (s : ClaudeSettings) (k : String) (v : JVal) :
    Except String ClaudeSettings :=
  if foldEq k "permissions" then
    (decodePerms s.permissions v).map (fun p => { s with permissions := p })
  else if foldEq k "enabledMcpjsonServers" then
    match v with
    | .jarr items => (decodeStringList items).map
        (fun l => { s with enabledMcpjsonServers := l })
    | .null => .ok { s with enabledMcpjsonServers := [] }
    | _ => .error "cannot unmarshal value into slice field enabledMcpjsonServers"
  else if foldEq k "enableAllProjectMcpServers" then
    match v with
    | .jbool b => .ok { s with enableAllProjectMcpServers := b }
    | .null => .ok s
    | _ => .error "cannot unmarshal value into bool field enableAllProjectMcpServers"
  else
    .ok s

/-- Decoding a JSON document into the claudeSettings struct. -/
def decodeSettings : JVal → Except String ClaudeSettings
  | .null => .ok zeroSettings
  | .jobj fields =>
    fields.foldlM (fun acc f => decodeSettingsField acc f.1 f.2) zeroSettings
  | _ => .error "cannot unmarshal value into claudeSettings"

/-- Unmarshal of a claudeSettings document from a string. -/
def unmarshalSettings (s : String) : Except String ClaudeSettings :=
  match jsonParse s with
  | none => .error "invalid json syntax"
  | some j => decodeSettings j

/-- The merged claudeSettings record built by buildClaudeSettingsJSON
before marshalling: parse the existing content if any (malformed content
starts fresh), force the default mode and the all-project flag, build the
new allow and deny lists from the permissions, server names and command
names, and merge them with mergeUniqueStrings.  The Go nil-slice guards
are identities on the list model. -/
def buildClaudeSettingsRecord (perms : Option Permissions)
    (mcpServerNames commandNames : List String) (existingContent : String) :
    ClaudeSettings :=
  let s : ClaudeSettings :=
    if existingContent ≠ "" then
      match unmarshalSettings existingContent with
      | .ok s => s
      | .error _ => zeroSettings
    else zeroSettings
  let s : ClaudeSettings :=
    { s with
      permissions := { s.permissions with defaultMode := "acceptEdits" }
      enableAllProjectMcpServers := true }
  let newAllow : List String :=
    (match perms with
    | some p => permStrings p.allow
    | none => [])
    ++ mcpServerNames.map (fun n => "mcp__" ++ n)
    ++ (commandNames.filter (fun n => n ≠ "")).map (fun n => "SlashCommand(/" ++ n ++ ")")
  let newDeny : List String :=
    match perms with
    | some p => permStrings p.deny
    | none => []
  { s with
    permissions := { s.permissions with
      allow := mergeUniqueStrings s.permissions.allow newAllow
      deny := mergeUniqueStrings s.permissions.deny newDeny }
    enabledMcpjsonServers := mergeUniqueStrings s.enabledMcpjsonServers mcpServerNames }

/-- Embedding of buildClaudeSettingsJSON: the merged record marshalled with
two-space indentation (the marshal step itself cannot fail). -/
def buildClaudeSettingsJSON (perms : Option Permissions)
    (mcpServerNames commandNames : List String) (existingContent : String) :
    Except String String :=
  .ok (marshalSettings (buildClaudeSettingsRecord perms mcpServerNames
    commandNames existingContent))

/-! ## Effects environment

Shell execution, HTTP fetching and file reading are the external effects of
the pipeline.  They are modelled by an explicit environment: a fixed mapping
from commands to outcomes, from URLs to response bodies or failures (a non-OK
status is a failure), and from paths to file contents (none stands for a
missing or unreadable file, which the mergers treat as empty). -/

structure Env where
  shell : String → Except String String
  http : String → Except String String
  readFile : String → Option String

/-- Modelled from the spec: utils.ExecuteCommand of core/utils is not under
src/ (only its callers and the older generator's identical copy are); per
section 4.1 it fails on an empty command and otherwise runs the command
through sh -c, with the outcome supplied here by the environment. -/
def ExecuteCommand (env : Env) (cmd : String) : Except String String :=
  if cmd = "" then .error "command cannot be empty"
  else env.shell cmd

/-- The GitReference message: a path and an optional version descriptor. -/
structure GitReference where
  path : String
  version : Option GitVersion
deriving DecidableEq, Repr

/-- Modelled from the spec and the older generator's identical copy:
utils.FetchGithub fails on a nil reference or empty path, converts the path
with ConvertToRawURL and fetches the result over HTTP, any non-200 response
being a failure (folded into the environment's outcome). -/
def FetchGithub (env : Env) (ref : Option GitReference) : Except String String :=
  match ref with
  | none => .error "github reference cannot be nil"
  | some ref =>
    if ref.path = "" then .error "github path cannot be empty"
    else
      match ConvertToRawURL ref.path ref.version with
      | .error e => .error e
      | .ok url => env.http url

/-! ## Context materializer (the generator taking a generation context) -/

/-- Oneof variants of a combined-source item. -/
inductive CombinedItem where
  | text (s : String)
  | cmd (s : String)
  | github (ref : Option GitReference)
  | prefetchId (id : String)
  | unsetItem
deriving DecidableEq, Repr

/-- The CombinedContextSource message: an ordered list of items, each
possibly nil. -/
structure CombinedContextSource where
  items : List (Option CombinedItem)
deriving DecidableEq, Repr

/-- The generation context: the prefetch mapping from logical id to fetched
data, keyed as a canonical map.  Only the data string of each FetchedData is
consulted after prefetch. -/
def GenCtx := List (String × String)

/-- Embedding of Context.fetchCombinedItem: text is literal, commands and
github references resolve through the shared utilities, prefetch ids are
looked up in the generation context, nil and unset items are errors. -/
def fetchCombinedItem (env : Env) (genCtx : GenCtx) :
    Option CombinedItem → Except String String
  | none => .error "combined item cannot be nil"
  | some (.text s) => .ok s
  | some (.cmd c) => ExecuteCommand env c
  | some (.github ref) => FetchGithub env ref
  | some (.prefetchId id) =>
    (match getKey id genCtx with
    | some data => .ok data
    | none => .error ("prefetch id [" ++ id ++ "] not found"))
  | some .unsetItem => .error "unknown or unset combined item type"

/-- The item loop of Context.fetchCombined: the builder accumulates each
resolved string, and the first failure aborts with the item's index. -/
def fetchCombinedItems (env : Env) (genCtx : GenCtx) (i : Nat) :
    List (Option CombinedItem) → Except String String
  | [] => .ok ""
  | item :: rest =>
    match fetchCombinedItem env genCtx item with
    | .error e => .error ("failed to fetch combined item " ++ toString i ++ ": " ++ e)
    | .ok c =>
      match fetchCombinedItems env genCtx (i + 1) rest with
      | .error e => .error e
      | .ok r => .ok (c ++ r)

/-- Embedding of Context.fetchCombined: nil source is an error, an empty
item list resolves to the empty string, otherwise the items resolve in
order. -/
def fetchCombined (env : Env) (genCtx : GenCtx) :
    Option CombinedContextSource → Except String String
  | none => .error "combined source cannot be nil"
  | some c =>
    if c.items.isEmpty then .ok ""
    else fetchCombinedItems env genCtx 0 c.items

/-- Oneof variants of a ContextFrom source. -/
inductive ContextFrom where
  | text (s : String)
  | cmd (s : String)
  | github (ref : Option GitReference)
  | combined (c : Option CombinedContextSource)
  | prefetchId (id : String)
  | unsetFrom
deriving DecidableEq, Repr

/-- Embedding of Context.fetchContent. -/
def fetchContent (env : Env) (genCtx : GenCtx) :
    Option ContextFrom → Except String String
  | none => .error "from source cannot be nil"
  | some (.text s) => .ok s
  | some (.cmd c) => ExecuteCommand env c
  | some (.github ref) => FetchGithub env ref
  | some (.combined c) => fetchCombined env genCtx c
  | some (.prefetchId id) =>
    (match getKey id genCtx with
    | some data => .ok data
    | none => .error ("prefetch id [" ++ id ++ "] not found"))
  | some .unsetFrom => .error "unknown or unset context source type"

/-- A materialized file entry (the FullFileContent wrapped by every
MaterializedResult entry). -/
structure FullFileContent where
  path : String
  content : String
deriving DecidableEq, Repr

/-- A ContextEntry message: a path and an optional source. -/
structure ContextEntry where
  path : String
  from? : Option ContextFrom
deriving DecidableEq, Repr

/-- Nil-safe GetPath of a context entry. -/
def entryPath : Option ContextEntry → String
  | none => ""
  | some e => e.path

/-- The Context message; a missing entry list is distinguished from an
empty one as in the generated accessors. -/
structure ContextMsg where
  entries : Option (List (Option ContextEntry))
deriving DecidableEq, Repr

/-- Embedding of Context.materializeEntry: empty path and missing source
are validation errors, fetch failures are wrapped. -/
def materializeEntry (env : Env) (genCtx : GenCtx) (entry : Option ContextEntry) :
    Except String FullFileContent :=
  let path := entryPath entry
  if path = "" then .error "entry path cannot be empty"
  else
    match entry with
    | none => .error "entry must have a 'from' source"
    | some e =>
      match e.from? with
      | none => .error "entry must have a 'from' source"
      | some f =>
        match fetchContent env genCtx (some f) with
        | .error err => .error ("failed to fetch content: " ++ err)
        | .ok content => .ok ⟨path, content⟩

/-- The entry loop of Context.Materialize, annotating the first failure
with the failing entry's path. -/
def contextLoop (env : Env) (genCtx : GenCtx) :
    List (Option ContextEntry) → Except String (List FullFileContent)
  | [] => .ok []
  | e :: rest =>
    match materializeEntry env genCtx e with
    | .error err =>
      .error ("failed to materialize entry for path " ++ entryPath e ++ ": " ++ err)
    | .ok f =>
      match contextLoop env genCtx rest with
      | .error err => .error err
      | .ok fs => .ok (f :: fs)

/-- Embedding of Context.Materialize (the newer generator threading the
generation context). -/
def ContextMaterialize (env : Env) (genCtx : GenCtx) :
    Option ContextMsg → Except String (List FullFileContent)
  | none => .error "context cannot be nil"
  | some m =>
    match m.entries with
    | none => .ok []
    | some entries => contextLoop env genCtx entries

/-! ## Shared IDE materializer (core/plugins/shared/ide.go) -/

/-- Oneof variants of a CommandFrom source. -/
inductive CommandFrom where
  | text (s : String)
  | cmd (s : String)
  | github (ref : Option GitReference)
  | unsetCmdFrom
deriving DecidableEq, Repr

/-- A Commands entry: name plus optional source. -/
structure Command where
  name : String
  from? : Option CommandFrom
deriving DecidableEq, Repr

/-- The Commands message. -/
structure Commands where
  entries : List (Option Command)
deriving DecidableEq, Repr

/-- Nil-safe GetName of a command. -/
def cmdName : Option Command → String
  | none => ""
  | some c => c.name

/-- Nil-safe GetFrom of a command. -/
def cmdFrom : Option Command → Option CommandFrom
  | none => none
  | some c => c.from?

/-- The Ide message. -/
structure Ide where
  commands : Option Commands
  permissions : Option Permissions
  mcp : Option Mcp
deriving DecidableEq, Repr

/-- Embedding of IDE.fetchCommandContent: nil or unset sources are rejected,
the three variants resolve like context sources. -/
def fetchCommandContent (env : Env) : Option CommandFrom → Except String String
  | none => .error "command 'from' source cannot be nil"
  | some .unsetCmdFrom => .error "command 'from' source cannot be nil"
  | some (.text s) => .ok s
  | some (.cmd c) => ExecuteCommand env c
  | some (.github ref) => FetchGithub env ref

/-- The settings input handed to the per-IDE settings strategy. -/
structure SettingsInput where
  permissions : Option Permissions
  mcpServerNames : List String
  commandNames : List String

/-- The shared IDE configuration: commands folder, MCP servers file path and
the per-IDE settings strategy (none stands for the nil interface replaced by
the no-op implementation). -/
structure IDEConf where
  commandsFolder : String
  mcpServersJSONPath : String
  settings : Option (Env → SettingsInput → Except String (List FullFileContent))

/-- The command loop of IDE.materializeCommands: empty names and missing
sources are validation errors, resolution failures are wrapped with the
command name, successful commands emit commandsFolder/name.md files. -/
def cmdLoop (conf : IDEConf) (env : Env) :
    List (Option Command) → Except String (List FullFileContent)
  | [] => .ok []
  | c :: rest =>
    let name := cmdName c
    if name = "" then .error "command name cannot be empty"
    else if (cmdFrom c).isNone then
      .error ("command " ++ name ++ " must have a 'from' source")
    else
      match fetchCommandContent env (cmdFrom c) with
      | .error e => .error ("failed to materialize command " ++ name ++ ": " ++ e)
      | .ok content =>
        match cmdLoop conf env rest with
        | .error e => .error e
        | .ok fs => .ok (⟨conf.commandsFolder ++ "/" ++ name ++ ".md", content⟩ :: fs)

/-- Embedding of IDE.materializeMcp: nothing to do without an Mcp section or
a configured path, otherwise read the existing file (missing means empty)
and emit the merged document at the configured path. -/
def materializeMcp (conf : IDEConf) (env : Env) (mcp : Option Mcp) :
    Except String (List FullFileContent) :=
  match mcp with
  | none => .ok []
  | some m =>
    if conf.mcpServersJSONPath = "" then .ok []
    else
      let existingContent := (env.readFile conf.mcpServersJSONPath).getD ""
      match buildMcpJSON (some m) existingContent with
      | .error e => .error e
      | .ok content => .ok [⟨conf.mcpServersJSONPath, content⟩]

/-- Embedding of IDE.Materialize: commands first, then the settings strategy
(invoked unconditionally with the extracted server and command names), then
the MCP servers file.  The Go map iteration order behind mcpServerNames is
modelled by the server list order. -/
def IDEMaterialize (conf : IDEConf) (env : Env) (ide : Option Ide) :
    Except String (List FullFileContent) :=
  match ide with
  | none => .error "ide cannot be nil"
  | some ide =>
    match (match ide.commands with
          | some cs => cmdLoop conf env cs.entries
          | none => Except.ok []) with
    | .error e => .error e
    | .ok cmdEntries =>
      let mcpServerNames : List String :=
        match ide.mcp with
        | some m => m.servers.map Prod.fst
        | none => []
      let commandNames : List String :=
        match ide.commands with
        | some cs => cs.entries.filterMap (fun c =>
            match c with
            | some c => if c.name ≠ "" then some c.name else none
            | none => none)
        | none => []
      let sett := conf.settings.getD (fun _ _ => .ok [])
      match sett env ⟨ide.permissions, mcpServerNames, commandNames⟩ with
      | .error e => .error e
      | .ok settingEntries =>
        match materializeMcp conf env ide.mcp with
        | .error e => .error e
        | .ok mcpEntries => .ok (cmdEntries ++ settingEntries ++ mcpEntries)

/-! ## The claude plugin (core/plugins/claude/ide.go) -/

/-- Embedding of materializePermissions: read the existing settings file
(missing means empty), build the merged settings document and emit it at the
fixed settings path. -/
def materializePermissions (env : Env) (perms : Option Permissions)
    (mcpServerNames commandNames : List String) :
    Except String (List FullFileContent) :=
  let existingContent := (env.readFile ".claude/settings.local.json").getD ""
  match buildClaudeSettingsJSON perms mcpServerNames commandNames existingContent with
  | .error e => .error e
  | .ok content => .ok [⟨".claude/settings.local.json", content⟩]

/-- The claude settings strategy (settings.Update). -/
def claudeSettingsUpdate (env : Env) (input : SettingsInput) :
    Except String (List FullFileContent) :=
  materializePermissions env input.permissions input.mcpServerNames input.commandNames

/-- The claude IDE provider built by NewIDEProvider. -/
def claudeIDEProvider : IDEConf :=
  ⟨".claude/commands", ".mcp.json", some claudeSettingsUpdate⟩

/-! ## Prefetch processor (core/prefetch/prefetch.go) -/

/-- Oneof variants of a PrefetchEntry message. -/
inductive PrefetchEntry where
  | cmd (s : String)
  | unsetEntry
deriving DecidableEq, Repr

/-- The Prefetch message. -/
structure Prefetch where
  entries : List (Option PrefetchEntry)
deriving DecidableEq, Repr

/-- Embedding of Processor.processEntry; only the Cmd case is defined, and
the unknown-type error text stands for the formatted Go message. -/
def processEntry (env : Env) : PrefetchEntry → Except String String
  | .cmd c =>
    if c = "" then .error "cmd cannot be empty"
    else
      match ExecuteCommand env c with
      | .error e => .error ("command execution failed: " ++ e)
      | .ok data => .ok data
  | .unsetEntry => .error "unknown or unset prefetch entry type"

/-- Modelled from the spec: the PrefetchResult protocol message (defined in
the external client library, not under src/) carries a repeated data field
of FetchedData pairs with string fields id and data; protojson unmarshalling
with DiscardUnknown tolerates and discards unknown fields.  A JSON null is
accepted as the default of any field per the proto3 JSON mapping. -/
def decodeFetchedData : JVal → Except String (String × String)
  | .jobj fields =>
    fields.foldlM (fun (acc : String × String) (f : String × JVal) =>
      if f.1 = "id" then
        match f.2 with
        | JVal.jstr s => Except.ok (s, acc.2)
        | JVal.null => Except.ok ("", acc.2)
        | _ => Except.error "invalid value for string field id"
      else if f.1 = "data" then
        match f.2 with
        | JVal.jstr s => Except.ok (acc.1, s)
        | JVal.null => Except.ok (acc.1, "")
        | _ => Except.error "invalid value for string field data"
      else Except.ok acc) ("", "")
  | .null => .error "unexpected token null"
  | _ => .error "unexpected token"

/-- Modelled from the spec: decoding a PrefetchResult document. -/
def decodePrefetchResult : JVal → Except String (List (String × String))
  | .jobj fields =>
    fields.foldlM (fun (acc : List (String × String)) (f : String × JVal) =>
      if f.1 = "data" then
        match f.2 with
        | JVal.jarr items => items.mapM decodeFetchedData
        | JVal.null => Except.ok []
        | _ => Except.error "invalid value for repeated field data"
      else Except.ok acc) []
  | _ => .error "unexpected token"

/-- Unmarshal of a PrefetchResult from command output. -/
def unmarshalPrefetchResult (s : String) : Except String (List (String × String)) :=
  match jsonParse s with
  | none => .error "invalid json syntax"
  | some j => decodePrefetchResult j

/-- The entry loop of Processor.Process: nil entries and processing failures
abort with the entry's index, unmarshal failures abort without it, decoded
pairs accumulate into the result map with later ids overwriting. -/
def processLoop (env : Env) (i : Nat) (acc : List (String × String)) :
    List (Option PrefetchEntry) → Except String (List (String × String))
  | [] => .ok acc
  | none :: _ => .error ("prefetch entry at index " ++ toString i ++ " is nil")
  | some e :: rest =>
    match processEntry env e with
    | .error err => .error ("failed to process entry at index " ++ toString i ++ ": " ++ err)
    | .ok data =>
      match unmarshalPrefetchResult data with
      | .error err => .error ("failed to unmarshal prefetch result: " ++ err)
      | .ok ds => processLoop env (i + 1) (ds.foldl (fun m d => setKey d.1 d.2 m) acc) rest

/-- Embedding of Processor.Process: an empty or absent entry list yields the
empty mapping without error. -/
def Process (env : Env) (pf : Option Prefetch) :
    Except String (List (String × String)) :=
  let entries := match pf with | none => [] | some p => p.entries
  if entries.length = 0 then .ok []
  else processLoop env 0 [] entries

/-! ## Recipe orchestrator (the recipes package taking an IDE provider) -/

/-- The Recipe message. -/
structure Recipe where
  context : Option ContextMsg
  ide : Option Ide
  prefetch : Option Prefetch

/-- Prefetch step of Recipe.Materialize: an absent section leaves the fresh
generation context empty, a failure is wrapped. -/
def recipePrefetched (env : Env) (r : Recipe) : Except String GenCtx :=
  match r.prefetch with
  | none => .ok []
  | some pf =>
    match Process env (some pf) with
    | .error e => .error ("failed to process prefetch: " ++ e)
    | .ok entries => .ok entries

/-- Context step of Recipe.Materialize: an absent section contributes no
entries, a failure is wrapped. -/
def recipeContextEntries (env : Env) (genCtx : GenCtx) (r : Recipe) :
    Except String (List FullFileContent) :=
  match r.context with
  | none => .ok []
  | some c =>
    match ContextMaterialize env genCtx (some c) with
    | .error e => .error ("failed to materialize context: " ++ e)
    | .ok es => .ok es

/-- IDE step of Recipe.Materialize: an absent section contributes no
entries, a failure is wrapped. -/
def recipeIdeEntries (env : Env)
    (ideMat : Env → Option Ide → Except String (List FullFileContent))
    (r : Recipe) : Except String (List FullFileContent) :=
  match r.ide with
  | none => .ok []
  | some ide =>
    match ideMat env (some ide) with
    | .error e => .error ("failed to materialize IDE configuration: " ++ e)
    | .ok es => .ok es

/-- Embedding of Recipe.Materialize, parameterized by the selected IDE
provider's materializer as the Go struct is by its IDE field: prefetch runs
first and only feeds the generation context, then context entries, then IDE
entries, concatenated in that order. -/
def RecipeMaterialize (env : Env)
    (ideMat : Env → Option Ide → Except String (List FullFileContent)) :
    Option Recipe → Except String (List FullFileContent)
  | none => .error "recipe cannot be nil"
  | some r =>
    match recipePrefetched env r with
    | .error e => .error e
    | .ok genCtx =>
      match recipeContextEntries env genCtx r with
      | .error e => .error e
      | .ok ctxEntries =>
        match recipeIdeEntries env ideMat r with
        | .error e => .error e
        | .ok ideEntries => .ok (ctxEntries ++ ideEntries)

/-! ## Definitions supporting the idempotence development -/

/-- Strictly ascending key order: the canonical-map invariant of every
embedded Go map. -/
def SortedKeys {α : Type} (l : List (String × α)) : Prop :=
  l.Pairwise (fun a b => keyLt a.1 b.1 = true)

/-- Last-occurrence lookup, describing what folding setKey over a list
produces. -/
def getKeyLast {α : Type} (k : String) : List (String × α) → Option α
  | [] => none
  | (k2, v) :: t =>
    match getKeyLast k t with
    | some v2 => some v2
    | none => if k = k2 then some v else none

/-- The JSON values marshalled for one mcpServerConfig, mirroring
configFields at the value level. -/
def configVals (c : McpServerConfig) : List (String × JVal) :=
  (if c.type = "" then [] else [("type", JVal.jstr c.type)])
  ++ (if c.command = "" then [] else [("command", JVal.jstr c.command)])
  ++ (if c.args.isEmpty then [] else [("args", JVal.jarr (c.args.map JVal.jstr))])
  ++ (if c.env.isEmpty then [] else
    [("env", JVal.jobj (c.env.map (fun p => (p.1, JVal.jstr p.2))))])
  ++ (if c.url = "" then [] else [("url", JVal.jstr c.url)])

/-- Rendered field text and parsed field value for one mcpServerConfig,
paired for the parser correctness lemmas. -/
def configTriples (d : Nat) (c : McpServerConfig) :
    List (String × (List Char × JVal)) :=
  (if c.type = "" then [] else [("type", (escapeString c.type, JVal.jstr c.type))])
  ++ (if c.command = "" then [] else
    [("command", (escapeString c.command, JVal.jstr c.command))])
  ++ (if c.args.isEmpty then [] else
    [("args", (renderStrList (d + 1) c.args, JVal.jarr (c.args.map JVal.jstr)))])
  ++ (if c.env.isEmpty then [] else
    [("env", (renderStrMap (d + 1) c.env,
      JVal.jobj (c.env.map (fun p => (p.1, JVal.jstr p.2)))))])
  ++ (if c.url = "" then [] else [("url", (escapeString c.url, JVal.jstr c.url))])

/-- The server one merge step writes, independent of the accumulator. -/
def mergeEntry (p : String × Option McpServerSpec) : Option McpServerConfig :=
  match p.2 with
  | none => none
  | some .unsetSrv => none
  | some (.http url) =>
    let srv : McpServerConfig := httpServerConfig url
    if srv.type ≠ "" ∨ srv.url ≠ "" ∨ srv.command ≠ "" then some srv else none
  | some (.stdio command) =>
    let srv : McpServerConfig := stdioServerConfig command
    if srv.type ≠ "" ∨ srv.url ≠ "" ∨ srv.command ≠ "" then some srv else none

/-- Last-writer value for a key across the whole merge. -/
def mergeVal (L : List (String × Option McpServerSpec)) (k : String) :
    Option McpServerConfig :=
  getKeyLast k (L.filterMap (fun p => (mergeEntry p).map (fun v => (p.1, v))))

/-- Well-formed document model: the server map and every env map are in
canonical sorted order, as every map built by the embedding is. -/
def McpWF (m : McpJson) : Prop :=
  SortedKeys m.mcpServers ∧ ∀ p ∈ m.mcpServers, SortedKeys p.2.env

/-- Fuel that suffices for the value parser on one rendered leaf or
one-level container value: a string needs one unit, an array or object of
strings one unit per element plus entry and exit. -/
def vCost : JVal → Nat
  | .jarr its => 2 * its.length + 2
  | .jobj fs => 2 * fs.length + 2
  | _ => 1

/-- Fuel that suffices for a rendered mcpServerConfig value: one unit per
field on top of each field value's own need, plus entry and exit. -/
def cCostV : JVal → Nat
  | .jobj fs => (fs.map (fun g => vCost g.2 + 1)).sum + 2
  | _ => 1

/-- Fuel that suffices for the rendered server map of a document. -/
def sCost (m : McpJson) : Nat :=
  (m.mcpServers.map (fun p => cCostV (.jobj (configVals p.2)) + 1)).sum + 2

/-- The JSON value marshalMcpJson renders, field for field. -/
def docVal (m : McpJson) : JVal :=
  .jobj [("mcpServers",
    .jobj (m.mcpServers.map (fun p => (p.1, .jobj (configVals p.2)))))]

/-! ## Concrete test environments used by witnesses -/

/-- An environment with no shell, no network and an empty file system. -/
def envT : Env := ⟨fun _ => .error "no shell", fun _ => .error "no http", fun _ => none⟩

/-- An environment whose shell always prints output that is not JSON. -/
def envU : Env := ⟨fun _ => .ok "not json", fun _ => .error "no http", fun _ => none⟩

/-! ## Lemmas about the settings merge -/

theorem mergeLoop_eq (l : List String) : ∀ seen acc,
    mergeLoop seen acc l = (mergeSeen seen l, acc ++ dedupFirstAux seen l) := by
  induction l with
  | nil => intro seen acc; simp [mergeLoop, mergeSeen, dedupFirstAux]
  | cons s rest ih =>
    intro seen acc
    by_cases h : s ∈ seen
    · simp [mergeLoop, mergeSeen, dedupFirstAux, h, ih]
    · simp [mergeLoop, mergeSeen, dedupFirstAux, h, ih]

theorem mem_mergeSeen (l : List String) : ∀ seen x,
    x ∈ mergeSeen seen l ↔ x ∈ seen ∨ x ∈ l := by
  induction l with
  | nil => intro seen x; simp [mergeSeen]
  | cons s rest ih =>
    intro seen x
    by_cases h : s ∈ seen
    · simp only [mergeSeen, h, if_true, ih, List.mem_cons]
      constructor
      · rintro (hx | hx)
        · exact Or.inl hx
        · exact Or.inr (Or.inr hx)
      · rintro (hx | hx | hx)
        · exact Or.inl hx
        · exact Or.inl (hx ▸ h)
        · exact Or.inr hx
    · simp only [mergeSeen, h, if_false, ih, List.mem_cons]
      tauto

/-- dedupFirstAux only looks at the seen set through membership. -/
theorem dedupFirstAux_congr (l : List String) : ∀ s₁ s₂,
    (∀ x, x ∈ s₁ ↔ x ∈ s₂) → dedupFirstAux s₁ l = dedupFirstAux s₂ l := by
  induction l with
  | nil => intro s₁ s₂ _; rfl
  | cons s rest ih =>
    intro s₁ s₂ h
    have hcons : ∀ x, x ∈ s :: s₁ ↔ x ∈ s :: s₂ := by
      intro x; simp [List.mem_cons, h x]
    by_cases hc : s ∈ s₁
    · have hc₂ : s ∈ s₂ := (h s).mp hc
      simp [dedupFirstAux, hc, hc₂, ih s₁ s₂ h]
    · have hc₂ : s ∉ s₂ := fun hx => hc ((h s).mpr hx)
      simp [dedupFirstAux, hc, hc₂, ih (s :: s₁) (s :: s₂) hcons]

/-- Extending the seen set by a second list is the same as pre-filtering the
input by that list. -/
theorem dedupFirstAux_append (l : List String) : ∀ s₁ s₂,
    dedupFirstAux (s₁ ++ s₂) l
      = dedupFirstAux s₁ (l.filter (fun x => decide (x ∉ s₂))) := by
  induction l with
  | nil => intro s₁ s₂; rfl
  | cons s rest ih =>
    intro s₁ s₂
    by_cases h₂ : s ∈ s₂
    · have happ : s ∈ s₁ ++ s₂ := List.mem_append.mpr (Or.inr h₂)
      simp [dedupFirstAux, happ, List.filter_cons, h₂, ih]
    · by_cases h₁ : s ∈ s₁
      · have happ : s ∈ s₁ ++ s₂ := List.mem_append.mpr (Or.inl h₁)
        simp [dedupFirstAux, happ, List.filter_cons, h₂, h₁, ih]
      · have happ : s ∉ s₁ ++ s₂ := by
          simp [List.mem_append, h₁, h₂]
        have hcons : s :: (s₁ ++ s₂) = (s :: s₁) ++ s₂ := rfl
        have hdec : (fun x => decide (x ∉ s₂)) s = true := by simp [h₂]
        simp only [dedupFirstAux, happ, if_false, List.filter_cons, hdec, if_true]
        rw [hcons, ih]
        simp [dedupFirstAux, h₁]

theorem mem_dedupFirstAux (l : List String) : ∀ seen x,
    x ∈ dedupFirstAux seen l ↔ x ∈ l ∧ x ∉ seen := by
  induction l with
  | nil => intro seen x; simp [dedupFirstAux]
  | cons s rest ih =>
    intro seen x
    by_cases h : s ∈ seen
    · simp only [dedupFirstAux, h, if_true, ih, List.mem_cons]
      constructor
      · rintro ⟨hx, hs⟩; exact ⟨Or.inr hx, hs⟩
      · rintro ⟨hx | hx, hs⟩
        · exact absurd (hx ▸ h) hs
        · exact ⟨hx, hs⟩
    · simp only [dedupFirstAux, h, if_false, List.mem_cons, ih]
      constructor
      · rintro (hx | ⟨hx, hs⟩)
        · exact ⟨Or.inl hx, hx ▸ h⟩
        · have : x ∉ seen := fun hxs => hs (Or.inr hxs)
          exact ⟨Or.inr hx, this⟩
      · rintro ⟨hx | hx, hs⟩
        · exact Or.inl hx
        · by_cases hxs : x = s
          · exact Or.inl hxs
          · refine Or.inr ⟨hx, ?_⟩
            simp [List.mem_cons, hs, hxs]

theorem nodup_dedupFirstAux (l : List String) : ∀ seen,
    (dedupFirstAux seen l).Nodup := by
  induction l with
  | nil => intro seen; simp [dedupFirstAux]
  | cons s rest ih =>
    intro seen
    by_cases h : s ∈ seen
    · simp [dedupFirstAux, h, ih]
    · simp only [dedupFirstAux, h, if_false, List.nodup_cons]
      refine ⟨?_, ih (s :: seen)⟩
      intro hmem
      have := (mem_dedupFirstAux rest (s :: seen) s).mp hmem
      simp [List.mem_cons] at this

/-- Structure of the merge: the result is the deduplicated existing list
followed by the deduplicated genuinely-new items. -/
theorem mergeUniqueStrings_eq (existing fresh : List String) :
    mergeUniqueStrings existing fresh
      = dedupFirst existing
        ++ dedupFirstAux [] (fresh.filter (fun x => decide (x ∉ existing))) := by
  show (mergeLoop (mergeLoop [] [] existing).1 (mergeLoop [] [] existing).2 fresh).2
      = dedupFirst existing
        ++ dedupFirstAux [] (fresh.filter (fun x => decide (x ∉ existing)))
  rw [mergeLoop_eq existing, mergeLoop_eq fresh]
  simp only [dedupFirst, List.nil_append, List.append_assoc]
  congr 1
  have hcongr : dedupFirstAux (mergeSeen [] existing) fresh
      = dedupFirstAux ([] ++ existing) fresh := by
    apply dedupFirstAux_congr
    intro x
    simp [mem_mergeSeen]
  rw [hcongr, dedupFirstAux_append]

/-- C1: mergeUniqueStrings merges two string lists with stable first-seen-wins
deduplication: the result has no duplicates, its elements are exactly those of
the two inputs, it is the deduplicated existing list followed by the
deduplicated genuinely new items in their original order, and merging the
allow list of the scenario gives exactly the two permission strings in order. -/
theorem mergeUniqueStrings_dedup_stable (existing fresh : List String) :
    (mergeUniqueStrings existing fresh).Nodup
    ∧ (∀ x, x ∈ mergeUniqueStrings existing fresh ↔ x ∈ existing ∨ x ∈ fresh)
    ∧ mergeUniqueStrings existing fresh
        = dedupFirst existing
          ++ dedupFirst (fresh.filter (fun x => decide (x ∉ existing)))
    ∧ mergeUniqueStrings ["Bash(git status:*)"] ["Bash(go test:*)"]
        = ["Bash(git status:*)", "Bash(go test:*)"] := by
  have heq := mergeUniqueStrings_eq existing fresh
  refine ⟨?_, ?_, heq, by decide⟩
  · rw [heq]
    rw [List.nodup_append]
    refine ⟨nodup_dedupFirstAux existing [], nodup_dedupFirstAux _ [], ?_⟩
    intro x hx₁ hx₂
    have h₁ := (mem_dedupFirstAux existing [] x).mp hx₁
    have h₂ := (mem_dedupFirstAux _ [] x).mp hx₂
    have := (List.mem_filter.mp h₂.1).2
    simp at this
    exact this h₁.1
  · intro x
    rw [heq, List.mem_append]
    simp only [dedupFirst]
    rw [mem_dedupFirstAux, mem_dedupFirstAux]
    simp only [List.mem_filter, List.not_mem_nil, not_false_iff, and_true,
      decide_eq_true_eq]
    tauto

/-! ## Claim theorems about ConvertToRawURL -/

/-- C6: the scenario blob URL converts to the corresponding raw content URL,
and every path that already names the raw content host, or that does not
contain the github.com host at all, passes through unchanged without error. -/
theorem convertToRawURL_passthrough_and_blob_scenario :
    ConvertToRawURL "https://github.com/org/repo/blob/main/f.md" none
        = .ok "https://raw.githubusercontent.com/org/repo/main/f.md"
    ∧ (∀ path version, goContains path "raw.githubusercontent.com" = true →
        ConvertToRawURL path version = .ok path)
    ∧ (∀ path version, goContains path "github.com" = false →
        ConvertToRawURL path version = .ok path) := by
  refine ⟨rfl, ?_, ?_⟩
  · intro path version h
    simp [ConvertToRawURL, h]
  · intro path version h
    simp [ConvertToRawURL, h]

/-- Witness for C6: both passthrough branches evaluated at concrete paths. -/
theorem convertToRawURL_passthrough_witness :
    ConvertToRawURL "https://raw.githubusercontent.com/a/b/main/f.md" none
        = .ok "https://raw.githubusercontent.com/a/b/main/f.md"
    ∧ ConvertToRawURL "https://example.com/f.md" none
        = .ok "https://example.com/f.md" :=
  ⟨convertToRawURL_passthrough_and_blob_scenario.2.1
      "https://raw.githubusercontent.com/a/b/main/f.md" none (by decide),
   convertToRawURL_passthrough_and_blob_scenario.2.2
      "https://example.com/f.md" none (by decide)⟩

/-- Counterexample to C5 as stated: a github path whose stripped form splits
into exactly three segments, the third being the literal blob, is converted
successfully (treating blob as the file path) instead of failing, so success
is not limited to the five-segment case. -/
theorem convertToRawURL_three_segment_blob_accepted :
    (splitNChar '/' 5 (strippedPath "https://github.com/org/repo/blob").data).getD 2 []
        = "blob".data
    ∧ (splitNChar '/' 5 (strippedPath "https://github.com/org/repo/blob").data).length = 3
    ∧ ConvertToRawURL "https://github.com/org/repo/blob" none
        = .ok "https://raw.githubusercontent.com/org/repo/main/blob" :=
  ⟨by decide, by decide, rfl⟩

/-- C5 amended: for github paths (not raw, containing the host) whose
stripped form splits into at least four segments with blob or tree third,
conversion fails with the invalid-format error on exactly four segments and
succeeds on exactly five. -/
theorem convertToRawURL_blob_tree_arity (githubPath : String)
    (version : Option GitVersion)
    (hraw : goContains githubPath "raw.githubusercontent.com" = false)
    (hgh : goContains githubPath "github.com" = true)
    (hbt : (splitNChar '/' 5 (strippedPath githubPath).data).getD 2 [] = "blob".data
        ∨ (splitNChar '/' 5 (strippedPath githubPath).data).getD 2 [] = "tree".data) :
    ((splitNChar '/' 5 (strippedPath githubPath).data).length = 4 →
        ConvertToRawURL githubPath version
          = .error ("invalid github path format: " ++ strippedPath githubPath))
    ∧ ((splitNChar '/' 5 (strippedPath githubPath).data).length = 5 →
        ∃ u, ConvertToRawURL githubPath version = .ok u) := by
  constructor
  · intro hlen
    have hcond : (goContains githubPath "raw.githubusercontent.com"
        || !goContains githubPath "github.com") = false := by
      rw [hraw, hgh]; rfl
    simp only [ConvertToRawURL, hcond, Bool.false_eq_true, if_false]
    rw [if_pos ⟨by omega, hbt⟩, if_pos (by omega)]
  · intro hlen
    have hcond : (goContains githubPath "raw.githubusercontent.com"
        || !goContains githubPath "github.com") = false := by
      rw [hraw, hgh]; rfl
    exact ⟨_, by
      simp only [ConvertToRawURL, hcond, Bool.false_eq_true, if_false]
      rw [if_pos ⟨by omega, hbt⟩, if_neg (by omega)]⟩

/-! ## Claim theorems about the combined source resolver -/

theorem stringFoldl_append (l : List String) : ∀ a : String,
    l.foldl (· ++ ·) a = a ++ l.foldl (· ++ ·) "" := by
  induction l with
  | nil => intro a; simp
  | cons c cs ih =>
    intro a
    simp only [List.foldl_cons]
    rw [ih (a ++ c), ih ("" ++ c)]
    simp [String.append_assoc]

theorem stringJoin_cons (c : String) (cs : List String) :
    String.join (c :: cs) = c ++ String.join cs := by
  simp only [String.join, List.foldl_cons]
  rw [stringFoldl_append]
  simp

theorem fetchCombinedItems_all_ok (env : Env) (genCtx : GenCtx) :
    ∀ (items : List (Option CombinedItem)) (contents : List String) (i : Nat),
      items.map (fetchCombinedItem env genCtx) = contents.map Except.ok →
      fetchCombinedItems env genCtx i items = .ok (String.join contents) := by
  intro items
  induction items with
  | nil =>
    intro contents i h
    have : contents = [] := by
      cases contents with
      | nil => rfl
      | cons c cs => simp at h
    subst this
    simp [fetchCombinedItems, String.join]
  | cons item rest ih =>
    intro contents i h
    cases contents with
    | nil => simp at h
    | cons c cs =>
      simp only [List.map_cons, List.cons.injEq] at h
      rw [stringJoin_cons]
      simp only [fetchCombinedItems, h.1]
      rw [ih cs (i + 1) h.2]

theorem fetchCombinedItems_first_error (env : Env) (genCtx : GenCtx) :
    ∀ (pre : List (Option CombinedItem)) (item : Option CombinedItem)
      (rest : List (Option CombinedItem)) (e : String) (i : Nat),
      (∀ it ∈ pre, ∃ s, fetchCombinedItem env genCtx it = .ok s) →
      fetchCombinedItem env genCtx item = .error e →
      fetchCombinedItems env genCtx i (pre ++ item :: rest)
        = .error ("failed to fetch combined item " ++ toString (i + pre.length) ++ ": " ++ e) := by
  intro pre
  induction pre with
  | nil =>
    intro item rest e i _ hfail
    simp [fetchCombinedItems, hfail]
  | cons p ps ih =>
    intro item rest e i hpre hfail
    obtain ⟨s, hs⟩ := hpre p (List.mem_cons_self p ps)
    have hrest : ∀ it ∈ ps, ∃ s, fetchCombinedItem env genCtx it = .ok s :=
      fun it hit => hpre it (List.mem_cons_of_mem p hit)
    simp only [List.cons_append, List.append_eq, fetchCombinedItems, hs]
    rw [ih item rest e (i + 1) hrest hfail]
    have : i + 1 + ps.length = i + (ps.length + 1) := by omega
    simp [this]

/-- C3: a Combined source resolves to the ordered concatenation of its
items' resolved contents with no separator; an empty item list resolves to
the empty string; and when all items before some failing item resolve, the
whole resolution fails with an error naming that item's zero-based index. -/
theorem fetchCombined_concat_empty_and_first_failure (env : Env) (genCtx : GenCtx) :
    (∀ (items : List (Option CombinedItem)) (contents : List String),
      items.map (fetchCombinedItem env genCtx) = contents.map Except.ok →
      fetchCombined env genCtx (some ⟨items⟩) = .ok (String.join contents))
    ∧ fetchCombined env genCtx (some ⟨[]⟩) = .ok ""
    ∧ (∀ (pre : List (Option CombinedItem)) (item : Option CombinedItem)
        (rest : List (Option CombinedItem)) (e : String),
      (∀ it ∈ pre, ∃ s, fetchCombinedItem env genCtx it = .ok s) →
      fetchCombinedItem env genCtx item = .error e →
      fetchCombined env genCtx (some ⟨pre ++ item :: rest⟩)
        = .error ("failed to fetch combined item " ++ toString pre.length ++ ": " ++ e)) := by
  refine ⟨?_, rfl, ?_⟩
  · intro items contents h
    cases items with
    | nil =>
      have : contents = [] := by
        cases contents with
        | nil => rfl
        | cons c cs => simp at h
      subst this
      rfl
    | cons item rest =>
      show fetchCombinedItems env genCtx 0 (item :: rest) = _
      exact fetchCombinedItems_all_ok env genCtx (item :: rest) contents 0 h
  · intro pre item rest e hpre hfail
    have hne : (pre ++ item :: rest).isEmpty = false := by
      cases pre <;> simp
    have := fetchCombinedItems_first_error env genCtx pre item rest e 0 hpre hfail
    simp only [fetchCombined, hne, Bool.false_eq_true, if_false, this, Nat.zero_add]

/-- Witness for C3: two text items concatenate without separator, and an
empty command as sole item fails reporting index zero. -/
theorem fetchCombined_concat_witness :
    fetchCombined envT [] (some ⟨[some (.text "a"), some (.text "b")]⟩) = .ok "ab"
    ∧ fetchCombined envT [] (some ⟨[some (.cmd "")]⟩)
        = .error "failed to fetch combined item 0: command cannot be empty" :=
  ⟨(fetchCombined_concat_empty_and_first_failure envT []).1
      [some (.text "a"), some (.text "b")] ["a", "b"] rfl,
   (fetchCombined_concat_empty_and_first_failure envT []).2.2
      [] (some (.cmd "")) [] "command cannot be empty"
      (fun it hit => absurd hit (List.not_mem_nil it)) rfl⟩

/-! ## Claim theorems about the prefetch processor -/

/-- Counterexample to C7 as stated: when an entry's command succeeds but its
output cannot be parsed, the error is the unmarshal wrapper, which carries no
index annotation at all (the embedded parser's message stands for the
protojson syntax error, and the Go wrapper format has no index verb). -/
theorem process_unmarshal_error_lacks_index :
    Process envU (some ⟨[some (.cmd "boom")]⟩)
      = .error "failed to unmarshal prefetch result: invalid json syntax"
    ∧ goContains "failed to unmarshal prefetch result: invalid json syntax" "index" = false :=
  ⟨rfl, by decide⟩

theorem processLoop_append_ok (env : Env) :
    ∀ (pre : List (Option PrefetchEntry)) (l : List (Option PrefetchEntry))
      (i : Nat) (acc : List (String × String)),
      (∀ it ∈ pre, ∃ pe data ds, it = some pe ∧ processEntry env pe = .ok data
        ∧ unmarshalPrefetchResult data = .ok ds) →
      ∃ acc2, processLoop env i acc (pre ++ l) = processLoop env (i + pre.length) acc2 l := by
  intro pre
  induction pre with
  | nil => intro l i acc _; exact ⟨acc, by simp⟩
  | cons p ps ih =>
    intro l i acc hpre
    obtain ⟨pe, data, ds, hp, hdata, hds⟩ := hpre p (List.mem_cons_self p ps)
    have hrest := fun it hit => hpre it (List.mem_cons_of_mem p hit)
    subst hp
    simp only [List.cons_append, List.append_eq, processLoop, hdata, hds]
    obtain ⟨acc2, h2⟩ := ih l (i + 1) (ds.foldl (fun m d => setKey d.1 d.2 m) acc) hrest
    refine ⟨acc2, ?_⟩
    rw [h2]
    have : i + 1 + ps.length = i + (ps.length + 1) := by omega
    simp [this]

/-- C7 amended: any per-entry failure aborts the whole batch with an error
and no mapping; nil entries and entry-processing failures (unknown type,
empty or failing command) are annotated with the entry's index, while an
output that cannot be parsed aborts with the unmarshal error carrying no
index.  All entries before the failing one are assumed to process cleanly. -/
theorem process_aborts_on_entry_failure (env : Env)
    (pre : List (Option PrefetchEntry)) (entry : Option PrefetchEntry)
    (rest : List (Option PrefetchEntry))
    (hpre : ∀ it ∈ pre, ∃ pe data ds, it = some pe ∧ processEntry env pe = .ok data
      ∧ unmarshalPrefetchResult data = .ok ds) :
    (entry = none →
      Process env (some ⟨pre ++ entry :: rest⟩)
        = .error ("prefetch entry at index " ++ toString pre.length ++ " is nil"))
    ∧ (∀ pe e, entry = some pe → processEntry env pe = .error e →
      Process env (some ⟨pre ++ entry :: rest⟩)
        = .error ("failed to process entry at index " ++ toString pre.length ++ ": " ++ e))
    ∧ (∀ pe data e2, entry = some pe → processEntry env pe = .ok data →
      unmarshalPrefetchResult data = .error e2 →
      Process env (some ⟨pre ++ entry :: rest⟩)
        = .error ("failed to unmarshal prefetch result: " ++ e2)) := by
  have hne : (pre ++ entry :: rest).length ≠ 0 := by simp
  obtain ⟨acc2, hsplit⟩ := processLoop_append_ok env pre (entry :: rest) 0 [] hpre
  have hproc : Process env (some ⟨pre ++ entry :: rest⟩)
      = processLoop env (0 + pre.length) acc2 (entry :: rest) := by
    have hbase : Process env (some ⟨pre ++ entry :: rest⟩)
        = processLoop env 0 [] (pre ++ entry :: rest) := by
      simp [Process, hne]
    rw [hbase, hsplit]
  refine ⟨?_, ?_, ?_⟩
  · intro h
    subst h
    rw [hproc]
    simp [processLoop, Nat.zero_add]
  · intro pe e h hfail
    subst h
    rw [hproc]
    simp [processLoop, hfail, Nat.zero_add]
  · intro pe data e2 h hok hbad
    subst h
    rw [hproc]
    simp [processLoop, hok, hbad, Nat.zero_add]

/-- Witness for the amended C7: a nil entry and a failing command at index
zero produce the index-annotated errors. -/
theorem process_aborts_witness :
    Process envT (some ⟨[none]⟩) = .error "prefetch entry at index 0 is nil"
    ∧ Process envT (some ⟨[some (.cmd "x")]⟩)
        = .error "failed to process entry at index 0: command execution failed: no shell" :=
  ⟨(process_aborts_on_entry_failure envT [] none []
      (fun it hit => absurd hit (List.not_mem_nil it))).1 rfl,
   (process_aborts_on_entry_failure envT [] (some (.cmd "x")) []
      (fun it hit => absurd hit (List.not_mem_nil it))).2.1 (.cmd "x")
      "command execution failed: no shell" rfl rfl⟩

/-! ## Claim theorems about the orchestrator -/

/-- C8: a materialized recipe's entries are exactly the context
materializer's entries followed by the IDE materializer's entries; the
prefetch step contributes no entries of its own, and an absent section
contributes none. -/
theorem recipeMaterialize_entry_order (env : Env)
    (ideMat : Env → Option Ide → Except String (List FullFileContent))
    (r : Recipe) (genCtx : GenCtx) (ctxEntries ideEntries : List FullFileContent)
    (hpf : recipePrefetched env r = .ok genCtx)
    (hctx : recipeContextEntries env genCtx r = .ok ctxEntries)
    (hide : recipeIdeEntries env ideMat r = .ok ideEntries) :
    RecipeMaterialize env ideMat (some r) = .ok (ctxEntries ++ ideEntries)
    ∧ (r.context = none → ctxEntries = [])
    ∧ (r.ide = none → ideEntries = []) := by
  refine ⟨?_, ?_, ?_⟩
  · simp [RecipeMaterialize, hpf, hctx, hide]
  · intro h
    rw [recipeContextEntries, h] at hctx
    cases hctx
    rfl
  · intro h
    rw [recipeIdeEntries, h] at hide
    cases hide
    rfl

/-- Witness for C8: the scenario recipe with one text context entry and no
IDE or prefetch sections materializes to exactly that entry. -/
theorem recipeMaterialize_entry_order_witness :
    RecipeMaterialize envT (fun _ _ => .ok [])
      (some ⟨some ⟨some [some ⟨"README.md", some (.text "# Project README")⟩]⟩, none, none⟩)
      = .ok ([⟨"README.md", "# Project README"⟩] ++ []) :=
  (recipeMaterialize_entry_order envT (fun _ _ => .ok [])
    ⟨some ⟨some [some ⟨"README.md", some (.text "# Project README")⟩]⟩, none, none⟩
    [] [⟨"README.md", "# Project README"⟩] [] rfl rfl rfl).1

/-! ## Claim theorems about the claude settings merge -/

/-- C10: whatever the existing settings file holds, the merged record forces
the permissions default mode to acceptEdits and the all-project MCP flag to
true, and the emitted document is exactly the marshalled merged record. -/
theorem buildClaudeSettings_forces_mode_and_flag (perms : Option Permissions)
    (mcpServerNames commandNames : List String) (existingContent : String) :
    (buildClaudeSettingsRecord perms mcpServerNames commandNames
      existingContent).permissions.defaultMode = "acceptEdits"
    ∧ (buildClaudeSettingsRecord perms mcpServerNames commandNames
      existingContent).enableAllProjectMcpServers = true
    ∧ buildClaudeSettingsJSON perms mcpServerNames commandNames existingContent
      = .ok (marshalSettings (buildClaudeSettingsRecord perms mcpServerNames
          commandNames existingContent)) :=
  ⟨rfl, rfl, rfl⟩

/-- The claude settings strategy always succeeds with exactly one entry at
the fixed settings path. -/
theorem claudeSettingsUpdate_eq (env : Env) (input : SettingsInput) :
    claudeSettingsUpdate env input = .ok [⟨".claude/settings.local.json",
      marshalSettings (buildClaudeSettingsRecord input.permissions
        input.mcpServerNames input.commandNames
        ((env.readFile ".claude/settings.local.json").getD ""))⟩] := rfl

/-- No command file path collides with the claude settings path: the two
fixed prefixes differ at character eight. -/
theorem claude_cmd_path_ne (n : String) :
    ".claude/commands" ++ "/" ++ n ++ ".md" ≠ ".claude/settings.local.json" := by
  intro h
  have hd := congrArg String.data h
  simp only [String.data_append] at hd
  rw [List.append_assoc, List.append_assoc] at hd
  have h8 := congrArg (fun l => l[8]?) hd
  simp only at h8
  rw [List.getElem?_append_left (by decide)] at h8
  revert h8
  decide

/-- Every entry emitted by the command loop lies under the commands folder
with an .md suffix. -/
theorem cmdLoop_paths (conf : IDEConf) (env : Env) :
    ∀ (l : List (Option Command)) (es : List FullFileContent),
      cmdLoop conf env l = .ok es →
      ∀ f ∈ es, ∃ n, f.path = conf.commandsFolder ++ "/" ++ n ++ ".md" := by
  intro l
  induction l with
  | nil =>
    intro es h f hf
    cases h
    simp at hf
  | cons c rest ih =>
    intro es h f hf
    simp only [cmdLoop] at h
    split at h
    · cases h
    · split at h
      · cases h
      · split at h
        · cases h
        · split at h
          · cases h
          · rename_i content hcontent fs hrest
            cases h
            rcases List.mem_cons.mp hf with hf | hf
            · exact ⟨cmdName c, by rw [hf]⟩
            · exact ih fs hrest f hf

/-- The MCP materializer emits either nothing or one entry at the configured
MCP servers path. -/
theorem materializeMcp_shape (conf : IDEConf) (env : Env) (mcp : Option Mcp)
    (es : List FullFileContent) (h : materializeMcp conf env mcp = .ok es) :
    es = [] ∨ ∃ c, es = [⟨conf.mcpServersJSONPath, c⟩] := by
  cases mcp with
  | none => cases h; exact Or.inl rfl
  | some m =>
    simp only [materializeMcp] at h
    split at h
    · cases h; exact Or.inl rfl
    · split at h
      · cases h
      · cases h
        rename_i content hcontent
        exact Or.inr ⟨content, rfl⟩

/-- C9: materializing any Ide through the shared IDE with the claude
settings strategy puts exactly one entry at .claude/settings.local.json in
the result, and even the empty Ide spec (no commands, no permissions, no
MCP servers) produces exactly the settings file entry. -/
theorem claudeMaterialize_always_settings_entry (env : Env) :
    (∀ (ide : Ide) (es : List FullFileContent),
      IDEMaterialize claudeIDEProvider env (some ide) = .ok es →
      (es.filter (fun f => f.path == ".claude/settings.local.json")).length = 1)
    ∧ IDEMaterialize claudeIDEProvider env (some ⟨none, none, none⟩)
        = .ok [⟨".claude/settings.local.json",
            marshalSettings (buildClaudeSettingsRecord none [] []
              ((env.readFile ".claude/settings.local.json").getD ""))⟩] := by
  constructor
  · intro ide es h
    simp only [IDEMaterialize] at h
    split at h
    · cases h
    · rename_i cmdEntries hcmd
      rw [show claudeIDEProvider.settings = some claudeSettingsUpdate from rfl] at h
      simp only [Option.getD_some, claudeSettingsUpdate_eq] at h
      cases hmcp : materializeMcp claudeIDEProvider env ide.mcp with
      | error e =>
        rw [hmcp] at h
        cases h
      | ok mcpEntries =>
        rw [hmcp] at h
        cases h
        have hcmdpaths : ∀ f ∈ cmdEntries,
            ¬(f.path == ".claude/settings.local.json") = true := by
          intro f hf
          have hform : ∃ n, f.path = ".claude/commands" ++ "/" ++ n ++ ".md" := by
            cases hide : ide.commands with
            | none => rw [hide] at hcmd; cases hcmd; simp at hf
            | some cs =>
              rw [hide] at hcmd
              exact cmdLoop_paths claudeIDEProvider env cs.entries cmdEntries hcmd f hf
          obtain ⟨n, hn⟩ := hform
          rw [hn]
          simp only [beq_iff_eq]
          exact claude_cmd_path_ne n
        have hmcppaths : ∀ f ∈ mcpEntries,
            ¬(f.path == ".claude/settings.local.json") = true := by
          intro f hf
          rcases materializeMcp_shape claudeIDEProvider env ide.mcp mcpEntries hmcp with
            hnil | ⟨c, hc⟩
          · rw [hnil] at hf; simp at hf
          · rw [hc] at hf
            simp only [List.mem_singleton] at hf
            rw [hf]
            simp only [beq_iff_eq]
            show ¬claudeIDEProvider.mcpServersJSONPath = ".claude/settings.local.json"
            decide
        rw [List.filter_append, List.filter_append]
        rw [List.filter_eq_nil_iff.mpr hcmdpaths, List.filter_eq_nil_iff.mpr hmcppaths]
        simp
  · rfl

/-- Witness for C9: the empty Ide spec materialized in the empty
environment yields exactly one settings entry. -/
theorem claudeMaterialize_always_settings_entry_witness :
    (((IDEMaterialize claudeIDEProvider envT (some ⟨none, none, none⟩)).toOption.getD
      []).filter (fun f => f.path == ".claude/settings.local.json")).length = 1 :=
  (claudeMaterialize_always_settings_entry envT).1 ⟨none, none, none⟩ _ rfl

/-! ## The env field dropped from stdio servers (C4) -/

/-- C4 failing input evaluated: merging server devplan with Stdio command
"devplan mcp" over malformed existing JSON yields a document whose only
server is devplan with type stdio, command devplan and args [mcp], but with
no env key at all: the omitempty tag on the env field drops the empty env
object the code sets, contradicting the always-include-an-env-object comment
in buildMcpJSON and the claim's env-present-as-empty-object requirement. -/
theorem buildMcpJSON_stdio_env_dropped :
    buildMcpJSON (some ⟨[("devplan", some (.stdio "devplan mcp"))]⟩)
        "\x7b \"mcpServers\": \x7b \"test\": \x7d"
      = .ok ("\x7b\n  \"mcpServers\": \x7b\n    \"devplan\": \x7b\n      \"type\": \"stdio\",\n      \"command\": \"devplan\",\n      \"args\": [\n        \"mcp\"\n      ]\n    \x7d\n  \x7d\n\x7d")
    ∧ goContains
        "\x7b\n  \"mcpServers\": \x7b\n    \"devplan\": \x7b\n      \"type\": \"stdio\",\n      \"command\": \"devplan\",\n      \"args\": [\n        \"mcp\"\n      ]\n    \x7d\n  \x7d\n\x7d"
        "env" = false
 :=
  ⟨rfl, by decide⟩

/-- Witness for the amended C5: a four-segment blob path is rejected with the
invalid-format error and a five-segment one converts successfully. -/
theorem convertToRawURL_blob_tree_arity_witness :
    ConvertToRawURL "https://github.com/org/repo/blob/main" none
        = .error ("invalid github path format: "
            ++ strippedPath "https://github.com/org/repo/blob/main")
    ∧ ∃ u, ConvertToRawURL "https://github.com/org/repo/tree/main/f.md" none = .ok u :=
  ⟨(convertToRawURL_blob_tree_arity "https://github.com/org/repo/blob/main" none
      (by decide) (by decide) (Or.inl (by decide))).1 (by decide),
   (convertToRawURL_blob_tree_arity "https://github.com/org/repo/tree/main/f.md" none
      (by decide) (by decide) (Or.inr (by decide))).2 (by decide)⟩

/-! ## Sorted map lemmas -/

theorem charListLt_iff (a : List Char) : ∀ b : List Char,
    charListLt a b = true ↔ a < b := by
  induction a with
  | nil =>
    intro b
    cases b with
    | nil =>
      simp only [charListLt]
      constructor
      · intro h; cases h
      · intro h; exact absurd h (lt_irrefl _)
    | cons y bs =>
      simp only [charListLt]
      constructor
      · intro _; exact List.Lex.nil
      · intro _; trivial
  | cons x as ih =>
    intro b
    cases b with
    | nil =>
      simp only [charListLt]
      constructor
      · intro h; cases h
      · intro h; exact absurd h (by simp [← List.lt_iff_lex_lt])
    | cons y bs =>
      simp only [charListLt]
      by_cases hxy : x < y
      · simp only [hxy, if_true, true_iff]
        exact List.Lex.rel hxy
      · by_cases hyx : y < x
        · simp only [hxy, hyx, if_true, if_false]
          constructor
          · intro h; cases h
          · intro h
            cases h with
            | cons h2 => exact absurd hyx (lt_irrefl x)
            | rel h2 => exact absurd hyx (asymm h2)
        · have heq : x = y := le_antisymm (not_lt.mp hyx) (not_lt.mp hxy)
          subst heq
          simp only [hxy, if_false, if_neg hyx]
          rw [ih bs]
          exact (List.Lex.cons_iff).symm

theorem string_data_eq {a b : String} (h : a.data = b.data) : a = b :=
  congrArg String.mk h

theorem keyLt_irrefl (a : String) : keyLt a a = false := by
  cases h : keyLt a a
  · rfl
  · exact absurd ((charListLt_iff a.data a.data).mp h) (lt_irrefl _)

theorem keyLt_trans {a b c : String} (h1 : keyLt a b = true) (h2 : keyLt b c = true) :
    keyLt a c = true := by
  exact (charListLt_iff a.data c.data).mpr
    (lt_trans ((charListLt_iff a.data b.data).mp h1) ((charListLt_iff b.data c.data).mp h2))

theorem keyLt_asymm {a b : String} (h : keyLt a b = true) : keyLt b a = false := by
  cases h2 : keyLt b a
  · rfl
  · exact absurd ((charListLt_iff b.data a.data).mp h2)
      (asymm ((charListLt_iff a.data b.data).mp h))

theorem keyLt_conn {a b : String} (h1 : keyLt a b = false) (h2 : keyLt b a = false) :
    a = b := by
  simp only [keyLt] at h1 h2
  have hab : ¬a.data < b.data := by
    intro h
    rw [(charListLt_iff a.data b.data).mpr h] at h1
    cases h1
  have hba : ¬b.data < a.data := by
    intro h
    rw [(charListLt_iff b.data a.data).mpr h] at h2
    cases h2
  exact string_data_eq (le_antisymm (not_lt.mp hba) (not_lt.mp hab))

theorem keyLt_ne {a b : String} (h : keyLt a b = true) : a ≠ b := by
  intro he
  subst he
  rw [keyLt_irrefl] at h
  cases h

theorem getKey_none {α : Type} (k : String) : ∀ l : List (String × α),
    (∀ p ∈ l, p.1 ≠ k) → getKey k l = none := by
  intro l
  induction l with
  | nil => intro _; rfl
  | cons p t ih =>
    intro h
    have hp := h p (List.mem_cons_self p t)
    simp only [getKey]
    rw [if_neg (fun he => hp he.symm)]
    exact ih (fun q hq => h q (List.mem_cons_of_mem p hq))

theorem getKey_some_mem {α : Type} (k : String) : ∀ (l : List (String × α)) (v : α),
    getKey k l = some v → ∃ p ∈ l, p.1 = k := by
  intro l
  induction l with
  | nil => intro v h; cases h
  | cons p t ih =>
    intro v h
    simp only [getKey] at h
    by_cases he : k = p.1
    · exact ⟨p, List.mem_cons_self p t, he.symm⟩
    · rw [if_neg he] at h
      obtain ⟨q, hq, hqe⟩ := ih v h
      exact ⟨q, List.mem_cons_of_mem p hq, hqe⟩

theorem getKey_setKey_same {α : Type} (k : String) (v : α) : ∀ l,
    getKey k (setKey k v l) = some v := by
  intro l
  induction l with
  | nil => simp [setKey, getKey]
  | cons p t ih =>
    simp only [setKey]
    by_cases he : k = p.1
    · rw [if_pos he]
      simp [getKey]
    · rw [if_neg he]
      by_cases hlt : keyLt k p.1
      · rw [if_pos hlt]
        simp [getKey]
      · rw [if_neg hlt]
        simp only [getKey]
        rw [if_neg he]
        exact ih

theorem getKey_setKey_ne {α : Type} (k k2 : String) (v : α) (h : k2 ≠ k) : ∀ l,
    getKey k2 (setKey k v l) = getKey k2 l := by
  intro l
  induction l with
  | nil => simp [setKey, getKey, h]
  | cons p t ih =>
    simp only [setKey]
    by_cases he : k = p.1
    · rw [if_pos he]
      simp only [getKey]
      rw [if_neg h, if_neg (he ▸ h)]
    · rw [if_neg he]
      by_cases hlt : keyLt k p.1
      · rw [if_pos hlt]
        simp only [getKey]
        rw [if_neg h]
      · rw [if_neg hlt]
        simp only [getKey]
        by_cases he2 : k2 = p.1
        · rw [if_pos he2, if_pos he2]
        · rw [if_neg he2, if_neg he2]
          exact ih

theorem mem_setKey {α : Type} (k : String) (v : α) : ∀ l q,
    q ∈ setKey k v l → q = (k, v) ∨ q ∈ l := by
  intro l
  induction l with
  | nil =>
    intro q hq
    simp [setKey] at hq
    exact Or.inl hq
  | cons p t ih =>
    intro q hq
    simp only [setKey] at hq
    by_cases he : k = p.1
    · rw [if_pos he] at hq
      rcases List.mem_cons.mp hq with h1 | h1
      · exact Or.inl h1
      · exact Or.inr (List.mem_cons_of_mem p h1)
    · rw [if_neg he] at hq
      by_cases hlt : keyLt k p.1
      · rw [if_pos hlt] at hq
        rcases List.mem_cons.mp hq with h1 | h1
        · exact Or.inl h1
        · exact Or.inr h1
      · rw [if_neg hlt] at hq
        rcases List.mem_cons.mp hq with h1 | h1
        · exact Or.inr (h1 ▸ List.mem_cons_self p t)
        · rcases ih q h1 with h2 | h2
          · exact Or.inl h2
          · exact Or.inr (List.mem_cons_of_mem p h2)


theorem setKey_sorted {α : Type} (k : String) (v : α) : ∀ l,
    SortedKeys l → SortedKeys (setKey k v l) := by
  intro l
  induction l with
  | nil => intro _; simp [setKey, SortedKeys]
  | cons p t ih =>
    intro hs
    rw [SortedKeys, List.pairwise_cons] at hs
    obtain ⟨hhead, htail⟩ := hs
    simp only [setKey]
    by_cases he : k = p.1
    · rw [if_pos he]
      rw [SortedKeys, List.pairwise_cons]
      exact ⟨fun q hq => he ▸ hhead q hq, htail⟩
    · by_cases hlt : keyLt k p.1
      · rw [if_neg he, if_pos hlt]
        simp only [SortedKeys, List.pairwise_cons]
        constructor
        · intro q hq
          rcases List.mem_cons.mp hq with h1 | h1
          · rw [h1]
            exact hlt
          · exact keyLt_trans hlt (hhead q h1)
        · exact ⟨hhead, htail⟩
      · rw [if_neg he, if_neg hlt]
        have hgt : keyLt p.1 k = true := by
          cases hk : keyLt p.1 k
          · exact absurd (keyLt_conn (by simpa using hlt) hk) he
          · rfl
        rw [SortedKeys, List.pairwise_cons]
        constructor
        · intro q hq
          rcases mem_setKey k v t q hq with h1 | h1
          · rw [h1]
            exact hgt
          · exact hhead q h1
        · exact ih htail

theorem sorted_head_not_in_tail {α : Type} {p : String × α} {t : List (String × α)}
    (h : SortedKeys (p :: t)) : getKey p.1 t = none := by
  rw [SortedKeys, List.pairwise_cons] at h
  exact getKey_none p.1 t (fun q hq => (keyLt_ne (h.1 q hq)).symm)

theorem sortedKeys_ext {α : Type} : ∀ (l l' : List (String × α)),
    SortedKeys l → SortedKeys l' → (∀ k, getKey k l = getKey k l') → l = l' := by
  intro l
  induction l with
  | nil =>
    intro l' _ _ he
    cases l' with
    | nil => rfl
    | cons q t' =>
      have := he q.1
      simp [getKey] at this
  | cons p t ih =>
    intro l' hs hs' he
    cases l' with
    | nil =>
      have := he p.1
      simp [getKey] at this
    | cons q t' =>
      have hpq : p.1 = q.1 := by
        by_contra hne
        have h1 : getKey p.1 (q :: t') = some p.2 := by
          rw [← he p.1]
          simp [getKey]
        have h2 : getKey q.1 (p :: t) = some q.2 := by
          rw [he q.1]
          simp [getKey]
        simp only [getKey] at h1 h2
        rw [if_neg hne] at h1
        rw [if_neg (fun h => hne h.symm)] at h2
        obtain ⟨r1, hr1, hre1⟩ := getKey_some_mem p.1 t' p.2 h1
        obtain ⟨r2, hr2, hre2⟩ := getKey_some_mem q.1 t q.2 h2
        simp only [SortedKeys, List.pairwise_cons] at hs hs'
        have hq1 : keyLt q.1 p.1 = true := hre1 ▸ hs'.1 r1 hr1
        have hp1 : keyLt p.1 q.1 = true := hre2 ▸ hs.1 r2 hr2
        rw [keyLt_asymm hp1] at hq1
        cases hq1
      have hv : p.2 = q.2 := by
        have h0 := he p.1
        simp [getKey, hpq] at h0
        exact h0
      have hpqe : p = q := by
        cases p
        cases q
        simp_all
      subst hpqe
      have htails : ∀ k, getKey k t = getKey k t' := by
        intro k
        by_cases hk : k = p.1
        · subst hk
          rw [sorted_head_not_in_tail hs, sorted_head_not_in_tail hs']
        · have := he k
          simp only [getKey] at this
          rw [if_neg hk, if_neg hk] at this
          exact this
      simp only [SortedKeys] at hs hs'
      exact congrArg (p :: ·)
        (ih t' (List.Pairwise.of_cons hs) (List.Pairwise.of_cons hs') htails)

theorem getKey_foldl_setKey {α : Type} : ∀ (l : List (String × α)) (acc) (k : String),
    getKey k (l.foldl (fun m d => setKey d.1 d.2 m) acc)
      = match getKeyLast k l with
        | some v => some v
        | none => getKey k acc := by
  intro l
  induction l with
  | nil => intro acc k; simp [getKeyLast]
  | cons d t ih =>
    intro acc k
    simp only [List.foldl_cons, getKeyLast]
    rw [ih]
    cases hlast : getKeyLast k t with
    | some v => simp
    | none =>
      simp only []
      by_cases hk : k = d.1
      · subst hk
        rw [if_pos rfl, getKey_setKey_same]
      · rw [if_neg hk, getKey_setKey_ne d.1 k d.2 hk]

theorem getKeyLast_eq_getKey {α : Type} : ∀ (l : List (String × α)), SortedKeys l →
    ∀ k, getKeyLast k l = getKey k l := by
  intro l
  induction l with
  | nil => intro _ k; rfl
  | cons p t ih =>
    intro hs k
    have htail := ih (List.Pairwise.of_cons hs) k
    simp only [getKeyLast, getKey, htail]
    by_cases hk : k = p.1
    · subst hk
      rw [sorted_head_not_in_tail hs]
    · rw [if_neg hk, if_neg hk]
      cases getKey k t <;> rfl

theorem foldl_setKey_sorted {α : Type} : ∀ (l : List (String × α)) (acc),
    SortedKeys acc → SortedKeys (l.foldl (fun m d => setKey d.1 d.2 m) acc) := by
  intro l
  induction l with
  | nil => intro acc h; exact h
  | cons d t ih =>
    intro acc h
    simp only [List.foldl_cons]
    exact ih _ (setKey_sorted d.1 d.2 acc h)

theorem foldl_setKey_self {α : Type} (l : List (String × α)) (h : SortedKeys l) :
    l.foldl (fun m d => setKey d.1 d.2 m) [] = l := by
  apply sortedKeys_ext _ _ (foldl_setKey_sorted l [] (by simp [SortedKeys])) h
  intro k
  rw [getKey_foldl_setKey, getKeyLast_eq_getKey l h k]
  cases getKey k l <;> rfl

/-! ## Merge idempotence lemmas -/

theorem stdioServerConfig_type (command : String) :
    (stdioServerConfig command).type = "stdio" := by
  unfold stdioServerConfig
  split
  · dsimp only
    split <;> rfl
  · rfl

theorem stdioServerConfig_env (command : String) :
    (stdioServerConfig command).env = [] := by
  unfold stdioServerConfig
  split
  · dsimp only
    split <;> rfl
  · rfl

theorem mergeStep_eq (acc : List (String × McpServerConfig))
    (p : String × Option McpServerSpec) :
    mergeStep acc p
      = match mergeEntry p with
        | some v => setKey p.1 v acc
        | none => acc := by
  rcases p with ⟨k, s⟩
  match s with
  | none => rfl
  | some .unsetSrv => rfl
  | some (.http url) =>
    have ht : (httpServerConfig url).type ≠ "" := by
      simp [httpServerConfig, zeroConfig]
    simp only [mergeStep, mergeEntry]
    rw [if_pos (Or.inl ht), if_pos (Or.inl ht)]
  | some (.stdio command) =>
    have ht : (stdioServerConfig command).type ≠ "" := by
      rw [stdioServerConfig_type]
      simp
    simp only [mergeStep, mergeEntry]
    rw [if_pos (Or.inl ht), if_pos (Or.inl ht)]

theorem mergeEntry_env {p : String × Option McpServerSpec} {v : McpServerConfig}
    (h : mergeEntry p = some v) : SortedKeys v.env := by
  rcases p with ⟨k, s⟩
  match s with
  | none => cases h
  | some .unsetSrv => cases h
  | some (.http url) =>
    simp only [mergeEntry] at h
    split at h
    · cases h
      simp [httpServerConfig, zeroConfig, SortedKeys]
    · cases h
  | some (.stdio command) =>
    simp only [mergeEntry] at h
    split at h
    · cases h
      rw [stdioServerConfig_env]
      simp [SortedKeys]
    · cases h

theorem getKey_mergeServers (L : List (String × Option McpServerSpec)) :
    ∀ acc k, getKey k (mergeServers L acc)
      = match mergeVal L k with
        | some v => some v
        | none => getKey k acc := by
  induction L with
  | nil => intro acc k; simp [mergeServers, mergeVal, getKeyLast]
  | cons p t ih =>
    intro acc k
    have hstep : mergeServers (p :: t) acc = mergeServers t (mergeStep acc p) := rfl
    rw [hstep, ih]
    cases hme : mergeEntry p with
    | none =>
      have hm : mergeStep acc p = acc := by rw [mergeStep_eq, hme]
      have hv : mergeVal (p :: t) k = mergeVal t k := by
        simp only [mergeVal, List.filterMap_cons, hme, Option.map_none']
      rw [hm, hv]
    | some v =>
      have hm : mergeStep acc p = setKey p.1 v acc := by rw [mergeStep_eq, hme]
      have hv : mergeVal (p :: t) k
          = match mergeVal t k with
            | some w => some w
            | none => if k = p.1 then some v else none := by
        simp only [mergeVal, List.filterMap_cons, hme, Option.map_some', getKeyLast]
        cases getKeyLast k
          (List.filterMap (fun p => Option.map (fun v => (p.1, v)) (mergeEntry p)) t) <;> rfl
      rw [hm, hv]
      cases hmv : mergeVal t k with
      | some w => simp
      | none =>
        simp only []
        by_cases hk : k = p.1
        · subst hk
          rw [if_pos rfl, getKey_setKey_same]
        · rw [if_neg hk, getKey_setKey_ne p.1 k v hk]

theorem mergeServers_sorted (L : List (String × Option McpServerSpec)) :
    ∀ acc, SortedKeys acc → SortedKeys (mergeServers L acc) := by
  induction L with
  | nil => intro acc h; exact h
  | cons p t ih =>
    intro acc h
    have hstep : mergeServers (p :: t) acc = mergeServers t (mergeStep acc p) := rfl
    rw [hstep]
    apply ih
    rw [mergeStep_eq]
    cases mergeEntry p with
    | none => exact h
    | some v => exact setKey_sorted p.1 v acc h

theorem mergeServers_env_sorted (L : List (String × Option McpServerSpec)) :
    ∀ acc, (∀ q ∈ acc, SortedKeys q.2.env) →
      ∀ q ∈ mergeServers L acc, SortedKeys q.2.env := by
  induction L with
  | nil => intro acc h; exact h
  | cons p t ih =>
    intro acc h
    have hstep : mergeServers (p :: t) acc = mergeServers t (mergeStep acc p) := rfl
    rw [hstep]
    apply ih
    intro q hq
    rw [mergeStep_eq] at hq
    cases hme : mergeEntry p with
    | none =>
      rw [hme] at hq
      exact h q hq
    | some v =>
      rw [hme] at hq
      rcases mem_setKey p.1 v acc q hq with h1 | h1
      · rw [h1]
        exact mergeEntry_env hme
      · exact h q h1

theorem mergeServers_idem (L : List (String × Option McpServerSpec))
    (b : List (String × McpServerConfig)) (hb : SortedKeys b) :
    mergeServers L (mergeServers L b) = mergeServers L b := by
  apply sortedKeys_ext _ _
    (mergeServers_sorted L _ (mergeServers_sorted L b hb))
    (mergeServers_sorted L b hb)
  intro k
  rw [getKey_mergeServers, getKey_mergeServers]
  cases hmv : mergeVal L k with
  | some v => rfl
  | none => simp [getKey_mergeServers, hmv]


/-! ## Parser correctness on rendered documents -/

theorem skipWs_cons_ws {c : Char} (h : isJsonWs c = true) (cs : List Char) :
    skipWs (c :: cs) = skipWs cs := by simp [skipWs, h]

theorem skipWs_cons_not {c : Char} (h : isJsonWs c = false) (cs : List Char) :
    skipWs (c :: cs) = c :: cs := by simp [skipWs, h]

theorem skipWs_indent (d : Nat) : ∀ cs, skipWs (indentChars d ++ cs) = skipWs cs := by
  induction d with
  | zero => intro cs; rfl
  | succ n ih =>
    intro cs
    simp only [indentChars, List.cons_append]
    rw [skipWs_cons_ws (show isJsonWs ' ' = true from rfl),
      skipWs_cons_ws (show isJsonWs ' ' = true from rfl), ih]

theorem hexVal_hexDigit : ∀ n, n < 16 → hexVal (hexDigit n) = some n := by decide

theorem char_toNat_valid (c : Char) :
    c.toNat < 0xD800 ∨ (0xE000 ≤ c.toNat ∧ c.toNat < 0x110000) := by
  have h := c.valid
  rcases h with h | h
  · exact Or.inl h
  · exact Or.inr h

theorem combineSurrogates_cons (n : Nat) (h1 : ¬(0xD800 ≤ n ∧ n < 0xE000))
    (rest : List Nat) :
    combineSurrogates (n :: rest) = Char.ofNat n :: combineSurrogates rest := by
  cases rest with
  | nil =>
    simp only [combineSurrogates]
    rw [if_neg h1]
  | cons m rest2 =>
    simp only [combineSurrogates]
    rw [if_neg (fun h => h1 ⟨h.1, by omega⟩), if_neg (fun h => h1 ⟨by omega, h.2⟩)]

theorem combineSurrogates_map (l : List Char) :
    combineSurrogates (l.map Char.toNat) = l := by
  induction l with
  | nil => rfl
  | cons c t ih =>
    have hns : ¬(0xD800 ≤ c.toNat ∧ c.toNat < 0xE000) := by
      rcases char_toNat_valid c with h | h <;> omega
    rw [List.map_cons, combineSurrogates_cons c.toNat hns, ih, Char.ofNat_toNat]

theorem parseStringRaw_escaped (l : List Char) : ∀ rest : List Char,
    parseStringRaw ((l.foldr (fun c acc => escapeChar c ++ acc) []) ++ '"' :: rest)
      = some (l.map Char.toNat, rest) := by
  induction l with
  | nil =>
    intro rest
    show parseStringRaw ('"' :: rest) = _
    rw [parseStringRaw.eq_def]
    rfl
  | cons c t ih =>
    intro rest
    rw [List.foldr_cons, List.append_assoc]
    by_cases h1 : c = '"'
    · subst h1
      rw [show escapeChar '"' = ['\\', '"'] from rfl]
      simp only [List.cons_append, List.nil_append]
      rw [parseStringRaw.eq_def]
      dsimp only
      rw [ih rest]
      rfl
    · by_cases h2 : c = '\\'
      · subst h2
        rw [show escapeChar '\\' = ['\\', '\\'] from rfl]
        simp only [List.cons_append, List.nil_append]
        rw [parseStringRaw.eq_def]
        dsimp only
        rw [ih rest]
        rfl
      · by_cases h3 : c = '\n'
        · subst h3
          rw [show escapeChar '\n' = ['\\', 'n'] from rfl]
          simp only [List.cons_append, List.nil_append]
          rw [parseStringRaw.eq_def]
          dsimp only
          rw [ih rest]
          rfl
        · by_cases h4 : c = '\r'
          · subst h4
            rw [show escapeChar '\r' = ['\\', 'r'] from rfl]
            simp only [List.cons_append, List.nil_append]
            rw [parseStringRaw.eq_def]
            dsimp only
            rw [ih rest]
            rfl
          · by_cases h5 : c = '\t'
            · subst h5
              rw [show escapeChar '\t' = ['\\', 't'] from rfl]
              simp only [List.cons_append, List.nil_append]
              rw [parseStringRaw.eq_def]
              dsimp only
              rw [ih rest]
              rfl
            · by_cases h6 : c = '<'
              · subst h6
                rw [show escapeChar '<' = ['\\', 'u', '0', '0', '3', 'c'] from rfl]
                simp only [List.cons_append, List.nil_append]
                rw [parseStringRaw.eq_def]
                dsimp only
                rw [show hexVal '0' = some 0 from rfl, show hexVal '3' = some 3 from rfl,
                  show hexVal 'c' = some 12 from rfl]
                dsimp only
                rw [ih rest]
                rfl
              · by_cases h7 : c = '>'
                · subst h7
                  rw [show escapeChar '>' = ['\\', 'u', '0', '0', '3', 'e'] from rfl]
                  simp only [List.cons_append, List.nil_append]
                  rw [parseStringRaw.eq_def]
                  dsimp only
                  rw [show hexVal '0' = some 0 from rfl, show hexVal '3' = some 3 from rfl,
                    show hexVal 'e' = some 14 from rfl]
                  dsimp only
                  rw [ih rest]
                  rfl
                · by_cases h8 : c = '&'
                  · subst h8
                    rw [show escapeChar '&' = ['\\', 'u', '0', '0', '2', '6'] from rfl]
                    simp only [List.cons_append, List.nil_append]
                    rw [parseStringRaw.eq_def]
                    dsimp only
                    rw [show hexVal '0' = some 0 from rfl, show hexVal '2' = some 2 from rfl,
                      show hexVal '6' = some 6 from rfl]
                    dsimp only
                    rw [ih rest]
                    rfl
                  · by_cases h9 : c.toNat < 0x20
                    · rw [show escapeChar c
                          = ['\\', 'u', '0', '0', hexDigit (c.toNat / 16),
                              hexDigit (c.toNat % 16)] from by
                        simp only [escapeChar, if_neg h1, if_neg h2, if_neg h3, if_neg h4,
                          if_neg h5, if_neg h6, if_neg h7, if_neg h8, if_pos h9]]
                      simp only [List.cons_append, List.nil_append]
                      rw [parseStringRaw.eq_def]
                      dsimp only
                      rw [show hexVal '0' = some 0 from rfl,
                        hexVal_hexDigit (c.toNat / 16) (by omega),
                        hexVal_hexDigit (c.toNat % 16) (by omega)]
                      dsimp only
                      rw [ih rest]
                      simp only [Option.map_some, List.map_cons]
                      have harith : ((0 * 16 + 0) * 16 + c.toNat / 16) * 16 + c.toNat % 16
                          = c.toNat := by omega
                      rw [harith]
                      rfl
                    · by_cases h10 : c.toNat = 0x2028
                      · rw [show escapeChar c = ['\\', 'u', '2', '0', '2', '8'] from by
                          simp only [escapeChar, if_neg h1, if_neg h2, if_neg h3, if_neg h4,
                            if_neg h5, if_neg h6, if_neg h7, if_neg h8, if_neg h9,
                            if_pos h10]]
                        simp only [List.cons_append, List.nil_append]
                        rw [parseStringRaw.eq_def]
                        dsimp only
                        rw [show hexVal '2' = some 2 from rfl,
                          show hexVal '0' = some 0 from rfl,
                          show hexVal '8' = some 8 from rfl]
                        dsimp only
                        rw [ih rest]
                        simp only [Option.map_some, List.map_cons, h10]
                        rfl
                      · by_cases h11 : c.toNat = 0x2029
                        · rw [show escapeChar c = ['\\', 'u', '2', '0', '2', '9'] from by
                            simp only [escapeChar, if_neg h1, if_neg h2, if_neg h3,
                              if_neg h4, if_neg h5, if_neg h6, if_neg h7, if_neg h8,
                              if_neg h9, if_neg h10, if_pos h11]]
                          simp only [List.cons_append, List.nil_append]
                          rw [parseStringRaw.eq_def]
                          dsimp only
                          rw [show hexVal '2' = some 2 from rfl,
                            show hexVal '0' = some 0 from rfl,
                            show hexVal '9' = some 9 from rfl]
                          dsimp only
                          rw [ih rest]
                          simp only [Option.map_some, List.map_cons, h11]
                          rfl
                        · rw [show escapeChar c = [c] from by
                            simp only [escapeChar, if_neg h1, if_neg h2, if_neg h3,
                              if_neg h4, if_neg h5, if_neg h6, if_neg h7, if_neg h8,
                              if_neg h9, if_neg h10, if_neg h11]]
                          simp only [List.cons_append, List.nil_append]
                          rw [parseStringRaw.eq_def]
                          dsimp only
                          rw [if_neg h1, if_neg h2, if_neg h9]
                          rw [ih rest]
                          rfl

theorem parseStringBody_escaped (s : String) (rest : List Char) :
    parseStringBody (escBody s ++ '"' :: rest) = some (s.data, rest) := by
  rw [parseStringBody, escBody, parseStringRaw_escaped]
  simp [combineSurrogates_map]

theorem parseVal_str (s : String) (rest : List Char) :
    ∀ fuel, 1 ≤ fuel → parseVal fuel (escapeString s ++ rest) = some (.jstr s, rest) := by
  intro fuel h
  cases fuel with
  | zero => omega
  | succ n =>
    have hchars : escapeString s ++ rest = '"' :: (escBody s ++ '"' :: rest) := by
      simp [escapeString, List.append_assoc]
    rw [hchars, parseVal.eq_def]
    dsimp only
    rw [skipWs_cons_not (show isJsonWs '"' = false from rfl)]
    simp only [parseStringBody_escaped]
    obtain ⟨d⟩ := s
    rfl

theorem parseVal_true (rest : List Char) :
    ∀ fuel, 1 ≤ fuel →
      parseVal fuel (['t', 'r', 'u', 'e'] ++ rest) = some (.jbool true, rest) := by
  intro fuel h
  cases fuel with
  | zero => omega
  | succ n =>
    rw [parseVal.eq_def]
    dsimp only
    simp only [List.cons_append, List.nil_append]
    rw [skipWs_cons_not (show isJsonWs 't' = false from rfl)]
    simp

theorem string_mk_data (s : String) : String.mk s.data = s := by
  obtain ⟨d⟩ := s
  rfl

theorem parseVal_ws {c : Char} (h : isJsonWs c = true) (cs : List Char) :
    ∀ fuel, parseVal fuel (c :: cs) = parseVal fuel cs := by
  intro fuel
  cases fuel with
  | zero => rfl
  | succ n =>
    rw [parseVal.eq_def]
    rw [parseVal.eq_def]
    dsimp only
    rw [skipWs_cons_ws h]

theorem parseVal_indent (d : Nat) : ∀ (cs : List Char) fuel,
    parseVal fuel (indentChars d ++ cs) = parseVal fuel cs := by
  induction d with
  | zero => intro cs fuel; rfl
  | succ n ih =>
    intro cs fuel
    simp only [indentChars, List.cons_append]
    rw [parseVal_ws (show isJsonWs ' ' = true from rfl),
      parseVal_ws (show isJsonWs ' ' = true from rfl), ih]

theorem escapeString_append (s : String) (X : List Char) :
    escapeString s ++ X = '"' :: (escBody s ++ '"' :: X) := by
  simp [escapeString, List.append_assoc]

theorem mem_ite_singleton {α : Type} {f x : α} {b : Prop} [Decidable b]
    (h : f ∈ (if b then ([] : List α) else [x])) : f = x := by
  by_cases hb : b
  · rw [if_pos hb] at h
    cases h
  · rw [if_neg hb] at h
    exact List.mem_singleton.mp h

theorem sum_map_const {α : Type} (l : List α) (k : Nat) :
    (l.map (fun _ => k)).sum = k * l.length := by
  induction l with
  | nil => simp
  | cons a t ih =>
    simp only [List.map_cons, List.sum_cons, ih, List.length_cons, Nat.mul_succ]
    omega

theorem sum_map_eq_const {α : Type} (l : List α) (f : α → Nat) (k : Nat)
    (h : ∀ a, f a = k) : (l.map f).sum = k * l.length := by
  induction l with
  | nil => simp
  | cons a t ih =>
    simp only [List.map_cons, List.sum_cons, ih, List.length_cons, h a, Nat.mul_succ]
    omega

theorem parseFields_more (cost : List Char × JVal → Nat) (d : Nat) :
    ∀ (fields : List (String × (List Char × JVal))),
    (∀ f ∈ fields, ∀ (rest : List Char) (fuel : Nat), cost f.2 ≤ fuel →
      parseVal fuel (f.2.1 ++ rest) = some (f.2.2, rest)) →
    ∀ (rest : List Char) (fuel : Nat),
      (fields.map (fun f => cost f.2 + 1)).sum + 1 ≤ fuel →
      parseFields fuel (renderMoreFields d (fields.map (fun f => (f.1, f.2.1)))
          ++ '\n' :: (indentChars d ++ '\x7d' :: rest))
        = some (fields.map (fun f => (f.1, f.2.2)), rest) := by
  intro fields
  induction fields with
  | nil =>
    intro _ rest fuel hf
    cases fuel with
    | zero => omega
    | succ g =>
      simp only [List.map_nil]
      rw [show renderMoreFields d ([] : List (String × List Char)) = [] from rfl,
        List.nil_append, parseFields.eq_def]
      dsimp only
      rw [skipWs_cons_ws (show isJsonWs '\n' = true from rfl), skipWs_indent,
        skipWs_cons_not (show isJsonWs '\x7d' = false from rfl)]
      simp
  | cons f fs ih =>
    intro hP rest fuel hf
    simp only [List.map_cons, List.sum_cons] at hf
    cases fuel with
    | zero => omega
    | succ g =>
      have hn : renderMoreFields d (List.map (fun f => (f.1, f.2.1)) (f :: fs))
            ++ '\n' :: (indentChars d ++ '\x7d' :: rest)
          = ',' :: '\n' :: (indentChars (d+1) ++ (escapeString f.1 ++ (':' :: ' ' ::
              (f.2.1 ++ (renderMoreFields d (List.map (fun f => (f.1, f.2.1)) fs)
                ++ '\n' :: (indentChars d ++ '\x7d' :: rest)))))) := by
        simp [renderMoreFields, List.append_assoc]
      rw [hn, parseFields.eq_def]
      dsimp only
      rw [skipWs_cons_not (show isJsonWs ',' = false from rfl)]
      simp only []
      rw [skipWs_cons_ws (show isJsonWs '\n' = true from rfl), skipWs_indent,
        escapeString_append, skipWs_cons_not (show isJsonWs '"' = false from rfl)]
      simp only []
      rw [parseStringBody_escaped]
      simp only []
      rw [skipWs_cons_not (show isJsonWs ':' = false from rfl)]
      simp only []
      rw [parseVal_ws (show isJsonWs ' ' = true from rfl),
        hP f (List.mem_cons_self f fs) _ g (by omega)]
      simp only []
      rw [ih (fun q hq => hP q (List.mem_cons_of_mem f hq)) rest g (by omega)]
      simp [string_mk_data]

theorem parseVal_obj_step (g : Nat) (t : List Char) :
    parseVal (g+1) ('\x7b' :: t)
      = match skipWs t with
        | '"' :: t2 =>
          (match parseStringBody t2 with
          | none => none
          | some (k, r) =>
            match skipWs r with
            | ':' :: r2 =>
              (match parseVal g r2 with
              | none => none
              | some (v, r3) =>
                match parseFields g r3 with
                | none => none
                | some (fs, r4) => some (JVal.jobj ((String.mk k, v) :: fs), r4))
            | _ => none)
        | c2 :: t2 => if c2 = '\x7d' then some (JVal.jobj [], t2) else none
        | [] => none := by
  rw [parseVal.eq_def]
  dsimp only
  rw [skipWs_cons_not (show isJsonWs '\x7b' = false from rfl)]
  split
  · rename_i heq
    simp at heq
  · rename_i heq
    simp at heq
  · rename_i heq
    simp at heq
  · rename_i heq
    simp at heq
  · rename_i heq
    simp at heq
  · rename_i heq
    simp at heq
  · rename_i heq
    cases heq
    rw [if_pos rfl]

theorem parseVal_obj (cost : List Char × JVal → Nat) (d : Nat)
    (fields : List (String × (List Char × JVal)))
    (hP : ∀ f ∈ fields, ∀ (rest : List Char) (fuel : Nat), cost f.2 ≤ fuel →
      parseVal fuel (f.2.1 ++ rest) = some (f.2.2, rest)) :
    ∀ (rest : List Char) (fuel : Nat),
      (fields.map (fun f => cost f.2 + 1)).sum + 2 ≤ fuel →
      parseVal fuel (renderObjFromChars d (fields.map (fun f => (f.1, f.2.1))) ++ rest)
        = some (.jobj (fields.map (fun f => (f.1, f.2.2))), rest) := by
  cases fields with
  | nil =>
    intro rest fuel hf
    cases fuel with
    | zero => omega
    | succ g =>
      simp only [List.map_nil]
      rw [show renderObjFromChars d ([] : List (String × List Char)) = ['\x7b', '\x7d']
          from rfl]
      simp only [List.cons_append, List.nil_append]
      rw [parseVal_obj_step]
      rw [skipWs_cons_not (show isJsonWs '\x7d' = false from rfl)]
      simp
  | cons f fs =>
    intro rest fuel hf
    simp only [List.map_cons, List.sum_cons] at hf
    cases fuel with
    | zero => omega
    | succ g =>
      have hn : renderObjFromChars d
              (List.map (fun f => (f.1, f.2.1)) (f :: fs)) ++ rest
          = '\x7b' :: '\n' :: (indentChars (d+1) ++ (escapeString f.1 ++ (':' :: ' ' ::
              (f.2.1 ++ (renderMoreFields d (List.map (fun f => (f.1, f.2.1)) fs)
                ++ '\n' :: (indentChars d ++ '\x7d' :: rest)))))) := by
        simp [renderObjFromChars, List.append_assoc]
      rw [hn, parseVal_obj_step]
      rw [skipWs_cons_ws (show isJsonWs '\n' = true from rfl), skipWs_indent,
        escapeString_append, skipWs_cons_not (show isJsonWs '"' = false from rfl)]
      simp only []
      rw [parseStringBody_escaped]
      simp only []
      rw [skipWs_cons_not (show isJsonWs ':' = false from rfl)]
      simp only []
      rw [parseVal_ws (show isJsonWs ' ' = true from rfl),
        hP f (List.mem_cons_self f fs) _ g (by omega)]
      simp only []
      rw [parseFields_more cost d fs
        (fun q hq => hP q (List.mem_cons_of_mem f hq)) rest g (by omega)]
      simp [string_mk_data]

theorem parseElems_more (cost : List Char × JVal → Nat) (d : Nat) :
    ∀ (items : List (List Char × JVal)),
    (∀ it ∈ items, ∀ (rest : List Char) (fuel : Nat), cost it ≤ fuel →
      parseVal fuel (it.1 ++ rest) = some (it.2, rest)) →
    ∀ (rest : List Char) (fuel : Nat),
      (items.map (fun it => cost it + 1)).sum + 1 ≤ fuel →
      parseElems fuel (renderMoreItems d (items.map (fun it => it.1))
          ++ '\n' :: (indentChars d ++ ']' :: rest))
        = some (items.map (fun it => it.2), rest) := by
  intro items
  induction items with
  | nil =>
    intro _ rest fuel hf
    cases fuel with
    | zero => omega
    | succ g =>
      simp only [List.map_nil]
      rw [show renderMoreItems d ([] : List (List Char)) = [] from rfl,
        List.nil_append, parseElems.eq_def]
      dsimp only
      rw [skipWs_cons_ws (show isJsonWs '\n' = true from rfl), skipWs_indent,
        skipWs_cons_not (show isJsonWs ']' = false from rfl)]
      simp
  | cons it its ih =>
    intro hP rest fuel hf
    simp only [List.map_cons, List.sum_cons] at hf
    cases fuel with
    | zero => omega
    | succ g =>
      have hn : renderMoreItems d (List.map (fun it => it.1) (it :: its))
            ++ '\n' :: (indentChars d ++ ']' :: rest)
          = ',' :: '\n' :: (indentChars (d+1)
              ++ (it.1 ++ (renderMoreItems d (List.map (fun it => it.1) its)
                ++ '\n' :: (indentChars d ++ ']' :: rest)))) := by
        simp [renderMoreItems, List.append_assoc]
      rw [hn, parseElems.eq_def]
      dsimp only
      rw [skipWs_cons_not (show isJsonWs ',' = false from rfl)]
      simp only []
      rw [parseVal_ws (show isJsonWs '\n' = true from rfl), parseVal_indent,
        hP it (List.mem_cons_self it its) _ g (by omega)]
      simp only []
      rw [ih (fun q hq => hP q (List.mem_cons_of_mem it hq)) rest g (by omega)]
      simp

theorem parseVal_arr_step (g : Nat) (t : List Char) :
    parseVal (g+1) ('[' :: t)
      = match skipWs t with
        | ']' :: t2 => some (JVal.jarr [], t2)
        | t' =>
          match parseVal g t' with
          | none => none
          | some (v, r) =>
            match parseElems g r with
            | none => none
            | some (vs, r2) => some (JVal.jarr (v :: vs), r2) := by
  rw [parseVal.eq_def]
  dsimp only
  rw [skipWs_cons_not (show isJsonWs '[' = false from rfl)]
  split
  · rename_i heq
    simp at heq
  · rename_i heq
    simp at heq
  · rename_i heq
    simp at heq
  · rename_i heq
    simp at heq
  · rename_i heq
    simp at heq
  · rename_i heq
    cases heq
    rfl
  · rename_i hn ht hf hq hb heq
    cases heq
    exact absurd rfl hb

theorem parseVal_strMap (d : Nat) (kvs : List (String × String)) :
    ∀ (rest : List Char) (fuel : Nat), 2 * kvs.length + 2 ≤ fuel →
      parseVal fuel (renderStrMap d kvs ++ rest)
        = some (.jobj (kvs.map (fun p => (p.1, .jstr p.2))), rest) := by
  intro rest fuel hf
  have h := parseVal_obj (fun _ => 1) d
    (kvs.map (fun p => (p.1, (escapeString p.2, JVal.jstr p.2))))
    (fun f hf2 rest2 fuel2 hc => by
      obtain ⟨p, hp, hfe⟩ := List.mem_map.mp hf2
      subst hfe
      exact parseVal_str p.2 rest2 fuel2 hc)
    rest fuel (by
      rw [sum_map_eq_const _ _ 2 (fun _ => rfl)]
      simp only [List.length_map]
      omega)
  simpa [renderStrMap, List.map_map, Function.comp] using h

theorem parseVal_strList (d : Nat) (xs : List String) : ∀ (rest : List Char) (fuel : Nat),
    2 * xs.length + 2 ≤ fuel →
    parseVal fuel (renderStrList d xs ++ rest) = some (.jarr (xs.map .jstr), rest) := by
  cases xs with
  | nil =>
    intro rest fuel h
    cases fuel with
    | zero => omega
    | succ g =>
      rw [show renderStrList d [] = ['[', ']'] from rfl]
      simp only [List.cons_append, List.nil_append]
      rw [parseVal_arr_step, skipWs_cons_not (show isJsonWs ']' = false from rfl)]
      simp
  | cons x xt =>
    intro rest fuel h
    cases fuel with
    | zero => omega
    | succ g =>
      have hn : renderStrList d (x :: xt) ++ rest
          = '[' :: '\n' :: (indentChars (d+1) ++ (escapeString x ++
              (renderMoreItems d (xt.map escapeString)
                ++ '\n' :: (indentChars d ++ ']' :: rest)))) := by
        simp [renderStrList, renderArrFromChars, List.append_assoc]
      rw [hn, parseVal_arr_step]
      rw [skipWs_cons_ws (show isJsonWs '\n' = true from rfl), skipWs_indent,
        escapeString_append, skipWs_cons_not (show isJsonWs '"' = false from rfl)]
      split
      · rename_i heq
        simp at heq
      rw [← escapeString_append, parseVal_str x _ g (by omega)]
      simp only []
      have hm : renderMoreItems d (xt.map escapeString)
          = renderMoreItems d ((xt.map (fun s => (escapeString s, JVal.jstr s))).map
              (fun it => it.1)) := by
        rw [List.map_map]
        rfl
      rw [hm, parseElems_more (fun _ => 1) d
        (xt.map (fun s => (escapeString s, JVal.jstr s)))
        (fun it hit rest2 fuel2 hc => by
          obtain ⟨q, hq, hqe⟩ := List.mem_map.mp hit
          subst hqe
          exact parseVal_str q rest2 fuel2 hc)
        rest g (by
          simp only [List.length_cons] at h
          rw [sum_map_eq_const _ _ 2 (fun _ => rfl)]
          simp only [List.length_map]
          omega)]
      simp [List.map_map, Function.comp]

theorem configFields_eq (d : Nat) (c : McpServerConfig) :
    configFields d c = (configTriples d c).map (fun f => (f.1, f.2.1)) := by
  simp only [configFields, configTriples, List.map_append,
    apply_ite (List.map (fun (f : String × (List Char × JVal)) => (f.1, f.2.1)))]
  rfl

theorem configVals_eq (d : Nat) (c : McpServerConfig) :
    configVals c = (configTriples d c).map (fun f => (f.1, f.2.2)) := by
  simp only [configVals, configTriples, List.map_append,
    apply_ite (List.map (fun (f : String × (List Char × JVal)) => (f.1, f.2.2)))]
  rfl

theorem configTriples_spec (d : Nat) (c : McpServerConfig) :
    ∀ f ∈ configTriples d c, ∀ (rest : List Char) (fuel : Nat),
      vCost f.2.2 ≤ fuel → parseVal fuel (f.2.1 ++ rest) = some (f.2.2, rest) := by
  intro f hf
  simp only [configTriples, List.mem_append] at hf
  rcases hf with ((((hf | hf) | hf) | hf) | hf)
  · have he := mem_ite_singleton hf
    subst he
    intro rest fuel hfu
    exact parseVal_str c.type rest fuel hfu
  · have he := mem_ite_singleton hf
    subst he
    intro rest fuel hfu
    exact parseVal_str c.command rest fuel hfu
  · have he := mem_ite_singleton hf
    subst he
    intro rest fuel hfu
    have h2 : 2 * c.args.length + 2 ≤ fuel := by
      simpa [vCost] using hfu
    exact parseVal_strList (d+1) c.args rest fuel h2
  · have he := mem_ite_singleton hf
    subst he
    intro rest fuel hfu
    have h2 : 2 * c.env.length + 2 ≤ fuel := by
      simpa [vCost] using hfu
    exact parseVal_strMap (d+1) c.env rest fuel h2
  · have he := mem_ite_singleton hf
    subst he
    intro rest fuel hfu
    exact parseVal_str c.url rest fuel hfu

theorem parseVal_config (c : McpServerConfig) :
    ∀ (rest : List Char) (fuel : Nat), cCostV (.jobj (configVals c)) ≤ fuel →
      parseVal fuel (renderConfig 2 c ++ rest) = some (.jobj (configVals c), rest) := by
  intro rest fuel hf
  have h := parseVal_obj (fun q => vCost q.2) 2 (configTriples 2 c)
    (configTriples_spec 2 c) rest fuel (by
      simp only [cCostV, configVals_eq 2, List.map_map] at hf
      exact hf)
  rw [renderConfig, configFields_eq 2, configVals_eq 2]
  exact h

theorem parseVal_servers (m : McpJson) :
    ∀ (rest : List Char) (fuel : Nat), sCost m ≤ fuel →
      parseVal fuel (renderObjFromChars 1
          (m.mcpServers.map (fun p => (p.1, renderConfig 2 p.2))) ++ rest)
        = some (.jobj (m.mcpServers.map (fun p => (p.1, .jobj (configVals p.2)))),
            rest) := by
  intro rest fuel hf
  have h := parseVal_obj (fun q => cCostV q.2) 1
    (m.mcpServers.map (fun p =>
      (p.1, (renderConfig 2 p.2, JVal.jobj (configVals p.2)))))
    (fun f hf2 rest2 fuel2 hc => by
      obtain ⟨p, hp, hfe⟩ := List.mem_map.mp hf2
      subst hfe
      exact parseVal_config p.2 rest2 fuel2 hc)
    rest fuel (by
      rw [List.map_map]
      simp only [sCost] at hf
      exact hf)
  have e1 : (m.mcpServers.map (fun p =>
        (p.1, (renderConfig 2 p.2, JVal.jobj (configVals p.2))))).map
          (fun f => (f.1, f.2.1))
      = m.mcpServers.map (fun p => (p.1, renderConfig 2 p.2)) := by
    rw [List.map_map]
    rfl
  have e2 : (m.mcpServers.map (fun p =>
        (p.1, (renderConfig 2 p.2, JVal.jobj (configVals p.2))))).map
          (fun f => (f.1, f.2.2))
      = m.mcpServers.map (fun p => (p.1, JVal.jobj (configVals p.2))) := by
    rw [List.map_map]
    rfl
  rw [e1, e2] at h
  exact h

theorem parseVal_doc (m : McpJson) :
    ∀ (rest : List Char) (fuel : Nat), sCost m + 3 ≤ fuel →
      parseVal fuel (renderObjFromChars 0 [("mcpServers",
          renderObjFromChars 1
            (m.mcpServers.map (fun p => (p.1, renderConfig 2 p.2))))] ++ rest)
        = some (docVal m, rest) := by
  intro rest fuel hf
  have h := parseVal_obj (fun _ => sCost m) 0
    [("mcpServers", (renderObjFromChars 1
        (m.mcpServers.map (fun p => (p.1, renderConfig 2 p.2))),
      JVal.jobj (m.mcpServers.map (fun p => (p.1, JVal.jobj (configVals p.2))))))]
    (fun f hf2 rest2 fuel2 hc => by
      have he := List.mem_singleton.mp hf2
      subst he
      exact parseVal_servers m rest2 fuel2 hc)
    rest fuel (by simp only [List.map_cons, List.map_nil, List.sum_cons,
      List.sum_nil]; omega)
  simpa [docVal] using h

theorem sum_map_ge_const {α : Type} (l : List α) (f : α → Nat) (k : Nat)
    (h : ∀ a ∈ l, k ≤ f a) : k * l.length ≤ (l.map f).sum := by
  induction l with
  | nil => simp
  | cons a t ih =>
    have ha := h a (List.mem_cons_self a t)
    have ht := ih (fun b hb => h b (List.mem_cons_of_mem a hb))
    simp only [List.map_cons, List.sum_cons, List.length_cons, Nat.mul_succ]
    omega

theorem escapeString_len (s : String) : 2 ≤ (escapeString s).length := by
  simp [escapeString]

theorem renderMoreItems_len (d : Nat) (xs : List String) :
    4 * xs.length ≤ (renderMoreItems d (xs.map escapeString)).length := by
  induction xs with
  | nil => simp [renderMoreItems]
  | cons x xt ih =>
    have hx := escapeString_len x
    simp only [List.map_cons, renderMoreItems, List.length_cons, List.length_append]
    omega

theorem renderStrList_len (d : Nat) (xs : List String) :
    2 * xs.length + 1 ≤ (renderStrList d xs).length := by
  cases xs with
  | nil => simp [renderStrList, renderArrFromChars]
  | cons x xt =>
    have hx := escapeString_len x
    have hm := renderMoreItems_len d xt
    simp only [renderStrList, List.map_cons, renderArrFromChars, List.length_cons,
      List.length_append]
    omega

theorem renderMoreFields_len (d : Nat) : ∀ (fields : List (String × List Char)),
    (fields.map (fun f => f.2.length + 6)).sum
      ≤ (renderMoreFields d fields).length := by
  intro fields
  induction fields with
  | nil => simp [renderMoreFields]
  | cons f fs ih =>
    have hk := escapeString_len f.1
    simp only [renderMoreFields, List.map_cons, List.sum_cons, List.length_cons,
      List.length_append]
    omega

theorem renderObj_len (d : Nat) : ∀ (fields : List (String × List Char)),
    (fields.map (fun f => f.2.length + 6)).sum
      ≤ (renderObjFromChars d fields).length := by
  intro fields
  cases fields with
  | nil => simp [renderObjFromChars]
  | cons f fs =>
    have hk := escapeString_len f.1
    have hm := renderMoreFields_len d fs
    simp only [renderObjFromChars, List.map_cons, List.sum_cons, List.length_cons,
      List.length_append]
    omega

theorem renderObj_len2 (d : Nat) (fields : List (String × List Char)) :
    2 ≤ (renderObjFromChars d fields).length := by
  cases fields with
  | nil => simp [renderObjFromChars]
  | cons f fs =>
    simp only [renderObjFromChars, List.length_cons, List.length_append]
    omega

theorem renderStrMap_len (d : Nat) (kvs : List (String × String)) :
    2 * kvs.length + 1 ≤ (renderStrMap d kvs).length := by
  have h0 := renderObj_len2 d (kvs.map (fun p => (p.1, escapeString p.2)))
  have h1 := renderObj_len d (kvs.map (fun p => (p.1, escapeString p.2)))
  have h2 : 8 * kvs.length
      ≤ ((kvs.map (fun p => (p.1, escapeString p.2))).map
          (fun f => f.2.length + 6)).sum := by
    have := sum_map_ge_const (kvs.map (fun p => (p.1, escapeString p.2)))
      (fun f => f.2.length + 6) 8 (fun a ha => by
        obtain ⟨p, hp, hpe⟩ := List.mem_map.mp ha
        subst hpe
        have := escapeString_len p.2
        simp only []
        omega)
    simpa [List.length_map] using this
  simp only [renderStrMap]
  omega

theorem vCost_le_triple (d : Nat) (c : McpServerConfig) :
    ∀ f ∈ configTriples d c, vCost f.2.2 ≤ f.2.1.length + 1 := by
  intro f hf
  simp only [configTriples, List.mem_append] at hf
  rcases hf with ((((hf | hf) | hf) | hf) | hf) <;>
    (have he := mem_ite_singleton hf; subst he)
  · simp [vCost]
  · simp [vCost]
  · have h1 := renderStrList_len (d+1) c.args
    simp only [vCost, List.length_map]
    omega
  · have h1 := renderStrMap_len (d+1) c.env
    simp only [vCost, List.length_map]
    omega
  · simp [vCost]

theorem cCost_le_render (c : McpServerConfig) :
    cCostV (.jobj (configVals c)) ≤ (renderConfig 2 c).length + 2 := by
  have h1 := renderObj_len 2 ((configTriples 2 c).map (fun f => (f.1, f.2.1)))
  have h4 : (((configTriples 2 c).map (fun f => (f.1, f.2.1))).map
        (fun f => f.2.length + 6)).sum
      = ((configTriples 2 c).map (fun f => f.2.1.length + 6)).sum := by
    rw [List.map_map]
    rfl
  have h2 : ((configTriples 2 c).map (fun f => vCost f.2.2 + 1)).sum
      ≤ ((configTriples 2 c).map (fun f => f.2.1.length + 6)).sum :=
    List.sum_le_sum (fun f hf => by
      have := vCost_le_triple 2 c f hf
      omega)
  have h3 : (((configTriples 2 c).map (fun f => (f.1, f.2.2))).map
        (fun g => vCost g.2 + 1)).sum
      = ((configTriples 2 c).map (fun f => vCost f.2.2 + 1)).sum := by
    rw [List.map_map]
    rfl
  simp only [cCostV, configVals_eq 2]
  rw [renderConfig, configFields_eq 2, h3]
  omega

theorem marshal_fuel (m : McpJson) :
    sCost m + 3 ≤ (marshalMcpJson m).data.length + 1 := by
  have hdoc := renderObj_len 0 [("mcpServers",
    renderObjFromChars 1 (m.mcpServers.map (fun p => (p.1, renderConfig 2 p.2))))]
  simp only [List.map_cons, List.map_nil, List.sum_cons, List.sum_nil] at hdoc
  have hinner := renderObj_len 1 (m.mcpServers.map (fun p => (p.1, renderConfig 2 p.2)))
  rw [List.map_map] at hinner
  have hsum : (m.mcpServers.map (fun p => cCostV (.jobj (configVals p.2)) + 1)).sum
      ≤ (m.mcpServers.map
          ((fun (f : String × List Char) => f.2.length + 6)
            ∘ (fun p => (p.1, renderConfig 2 p.2)))).sum :=
    List.sum_le_sum (fun p hp => by
      have := cCost_le_render p.2
      simp only [Function.comp]
      omega)
  have hdata : (marshalMcpJson m).data
      = renderObjFromChars 0 [("mcpServers",
          renderObjFromChars 1
            (m.mcpServers.map (fun p => (p.1, renderConfig 2 p.2))))] := rfl
  rw [hdata]
  simp only [sCost] at *
  omega

theorem jsonParse_marshal (m : McpJson) :
    jsonParse (marshalMcpJson m) = some (docVal m) := by
  have hf := marshal_fuel m
  have hdata : (marshalMcpJson m).data
      = renderObjFromChars 0 [("mcpServers",
          renderObjFromChars 1
            (m.mcpServers.map (fun p => (p.1, renderConfig 2 p.2))))] := rfl
  have hp := parseVal_doc m [] ((marshalMcpJson m).data.length + 1) (by omega)
  rw [List.append_nil, ← hdata] at hp
  simp only [jsonParse]
  rw [hp]
  simp [skipWs]

theorem mapM_jstr (xs : List String) :
    (xs.map JVal.jstr).mapM (fun it =>
      match it with
      | JVal.jstr s => Except.ok s
      | JVal.null => Except.ok ""
      | _ => Except.error "cannot unmarshal element into string")
      = Except.ok (ε := String) xs := by
  induction xs with
  | nil => rfl
  | cons x xt ih =>
    rw [List.map_cons, List.mapM_cons, ih]
    rfl

theorem foldlM_env (kvs : List (String × String)) : ∀ (acc : List (String × String)),
    (kvs.map (fun p => (p.1, JVal.jstr p.2))).foldlM
      (fun (acc : List (String × String)) (f : String × JVal) =>
        match f.2 with
        | JVal.jstr s => Except.ok (setKey f.1 s acc)
        | JVal.null => Except.ok (setKey f.1 "" acc)
        | _ => Except.error "cannot unmarshal element into string") acc
      = Except.ok (ε := String) (kvs.foldl (fun m d => setKey d.1 d.2 m) acc) := by
  induction kvs with
  | nil => intro acc; rfl
  | cons p t ih =>
    intro acc
    rw [List.map_cons, List.foldlM_cons]
    simp only []
    rw [show ((Except.ok (setKey p.1 p.2 acc) : Except String (List (String × String)))
        >>= fun acc => (t.map (fun p => (p.1, JVal.jstr p.2))).foldlM
          (fun (acc : List (String × String)) (f : String × JVal) =>
            match f.2 with
            | JVal.jstr s => Except.ok (setKey f.1 s acc)
            | JVal.null => Except.ok (setKey f.1 "" acc)
            | _ => Except.error "cannot unmarshal element into string") acc)
      = (t.map (fun p => (p.1, JVal.jstr p.2))).foldlM
          (fun (acc : List (String × String)) (f : String × JVal) =>
            match f.2 with
            | JVal.jstr s => Except.ok (setKey f.1 s acc)
            | JVal.null => Except.ok (setKey f.1 "" acc)
            | _ => Except.error "cannot unmarshal element into string")
          (setKey p.1 p.2 acc) from rfl, ih]
    rfl

theorem except_ok_bind {ε α β : Type} (x : α) (f : α → Except ε β) :
    (Except.ok x >>= f) = f x := rfl

theorem decodeConfig_vals (c : McpServerConfig) (henv : SortedKeys c.env) :
    decodeConfig (.jobj (configVals c)) = .ok c := by
  obtain ⟨ty, co, ar, en, ur⟩ := c
  simp only at henv
  have ptype : (if ty = "" then ([] : List (String × JVal))
        else [("type", JVal.jstr ty)]).foldlM
      (fun c f => decodeConfigField c f.1 f.2) (⟨"", "", [], [], ""⟩ : McpServerConfig)
      = Except.ok (⟨ty, "", [], [], ""⟩ : McpServerConfig) := by
    by_cases h : ty = ""
    · rw [if_pos h, List.foldlM_nil]
      subst h
      rfl
    · rw [if_neg h, List.foldlM_cons]
      rw [show decodeConfigField ⟨"", "", [], [], ""⟩ "type" (JVal.jstr ty)
          = Except.ok ⟨ty, "", [], [], ""⟩ from rfl]
      rfl
  have pcommand : (if co = "" then ([] : List (String × JVal))
        else [("command", JVal.jstr co)]).foldlM
      (fun c f => decodeConfigField c f.1 f.2) (⟨ty, "", [], [], ""⟩ : McpServerConfig)
      = Except.ok (⟨ty, co, [], [], ""⟩ : McpServerConfig) := by
    by_cases h : co = ""
    · rw [if_pos h, List.foldlM_nil]
      subst h
      rfl
    · rw [if_neg h, List.foldlM_cons]
      rw [show decodeConfigField ⟨ty, "", [], [], ""⟩ "command" (JVal.jstr co)
          = Except.ok ⟨ty, co, [], [], ""⟩ from rfl]
      rfl
  have pargs : (if ar.isEmpty then ([] : List (String × JVal))
        else [("args", JVal.jarr (ar.map JVal.jstr))]).foldlM
      (fun c f => decodeConfigField c f.1 f.2) (⟨ty, co, [], [], ""⟩ : McpServerConfig)
      = Except.ok (⟨ty, co, ar, [], ""⟩ : McpServerConfig) := by
    by_cases h : ar.isEmpty
    · rw [if_pos h, List.foldlM_nil]
      rw [List.isEmpty_iff.mp h]
      rfl
    · rw [if_neg h, List.foldlM_cons]
      rw [show decodeConfigField ⟨ty, co, [], [], ""⟩ "args" (JVal.jarr (ar.map JVal.jstr))
          = Except.ok ⟨ty, co, ar, [], ""⟩ from by
        rw [show decodeConfigField ⟨ty, co, [], [], ""⟩ "args"
              (JVal.jarr (ar.map JVal.jstr))
            = ((ar.map JVal.jstr).mapM (fun it =>
                match it with
                | JVal.jstr s => Except.ok s
                | JVal.null => Except.ok ""
                | _ => Except.error "cannot unmarshal element into string")).map
                (fun args => ⟨ty, co, args, [], ""⟩) from rfl, mapM_jstr]
        rfl]
      rfl
  have penv : (if en.isEmpty then ([] : List (String × JVal))
        else [("env", JVal.jobj (en.map (fun p => (p.1, JVal.jstr p.2))))]).foldlM
      (fun c f => decodeConfigField c f.1 f.2) (⟨ty, co, ar, [], ""⟩ : McpServerConfig)
      = Except.ok (⟨ty, co, ar, en, ""⟩ : McpServerConfig) := by
    by_cases h : en.isEmpty
    · rw [if_pos h, List.foldlM_nil]
      rw [List.isEmpty_iff.mp h]
      rfl
    · rw [if_neg h, List.foldlM_cons]
      rw [show decodeConfigField ⟨ty, co, ar, [], ""⟩ "env"
            (JVal.jobj (en.map (fun p => (p.1, JVal.jstr p.2))))
          = Except.ok ⟨ty, co, ar, en, ""⟩ from by
        rw [show decodeConfigField ⟨ty, co, ar, [], ""⟩ "env"
              (JVal.jobj (en.map (fun p => (p.1, JVal.jstr p.2))))
            = ((en.map (fun (p : String × String) => (p.1, JVal.jstr p.2))).foldlM
                (fun (acc : List (String × String)) (f : String × JVal) =>
                  match f.2 with
                  | JVal.jstr s => Except.ok (setKey f.1 s acc)
                  | JVal.null => Except.ok (setKey f.1 "" acc)
                  | _ => Except.error "cannot unmarshal element into string") []).map
                (fun env => ⟨ty, co, ar, env, ""⟩) from rfl,
          foldlM_env en [], foldl_setKey_self en henv]
        rfl]
      rfl
  have purl : (if ur = "" then ([] : List (String × JVal))
        else [("url", JVal.jstr ur)]).foldlM
      (fun c f => decodeConfigField c f.1 f.2) (⟨ty, co, ar, en, ""⟩ : McpServerConfig)
      = Except.ok (⟨ty, co, ar, en, ur⟩ : McpServerConfig) := by
    by_cases h : ur = ""
    · rw [if_pos h, List.foldlM_nil]
      subst h
      rfl
    · rw [if_neg h, List.foldlM_cons]
      rw [show decodeConfigField ⟨ty, co, ar, en, ""⟩ "url" (JVal.jstr ur)
          = Except.ok ⟨ty, co, ar, en, ur⟩ from rfl]
      rfl
  simp only [decodeConfig, configVals]
  rw [List.foldlM_append, List.foldlM_append, List.foldlM_append, List.foldlM_append]
  rw [show zeroConfig = (⟨"", "", [], [], ""⟩ : McpServerConfig) from rfl]
  rw [ptype, except_ok_bind, pcommand, except_ok_bind, pargs, except_ok_bind,
    penv, except_ok_bind, purl]

theorem decodeServers_vals (L : List (String × McpServerConfig)) :
    (∀ p ∈ L, SortedKeys p.2.env) →
    ∀ acc, decodeServers acc (L.map (fun p => (p.1, JVal.jobj (configVals p.2))))
      = .ok (L.foldl (fun m d => setKey d.1 d.2 m) acc) := by
  induction L with
  | nil => intro _ acc; rfl
  | cons p t ih =>
    intro henv acc
    rw [List.map_cons]
    simp only [decodeServers]
    rw [decodeConfig_vals p.2 (henv p (List.mem_cons_self p t))]
    simp only []
    rw [ih (fun q hq => henv q (List.mem_cons_of_mem p hq)) (setKey p.1 p.2 acc)]
    rfl

theorem decodeMcpJson_doc (m : McpJson) (hwf : McpWF m) :
    decodeMcpJson (docVal m) = .ok m := by
  obtain ⟨L⟩ := m
  obtain ⟨hs, henv⟩ := hwf
  simp only at hs henv
  simp only [docVal, decodeMcpJson]
  rw [show decodeMcpJson.go ⟨[]⟩ [("mcpServers",
      JVal.jobj (L.map (fun p => (p.1, JVal.jobj (configVals p.2)))))]
    = (match decodeServers (McpJson.mk []).mcpServers
          (L.map (fun p => (p.1, JVal.jobj (configVals p.2)))) with
      | .error e => .error e
      | .ok servers => decodeMcpJson.go ⟨servers⟩ []) from by
    rw [decodeMcpJson.go.eq_def]
    dsimp only
    rw [if_pos (show foldEq "mcpServers" "mcpServers" = true from by decide)]]
  rw [show (McpJson.mk []).mcpServers = [] from rfl,
    decodeServers_vals L henv [], foldl_setKey_self L hs]
  simp only []
  rw [decodeMcpJson.go.eq_def]

theorem unmarshal_marshal (m : McpJson) (hwf : McpWF m) :
    unmarshalMcpJson (marshalMcpJson m) = .ok m := by
  rw [unmarshalMcpJson, jsonParse_marshal]
  exact decodeMcpJson_doc m hwf

theorem marshal_ne (m : McpJson) : marshalMcpJson m ≠ "" := by
  intro h
  have h2 := congrArg String.data h
  simp only [marshalMcpJson] at h2
  rw [show renderObjFromChars 0 [("mcpServers",
      renderObjFromChars 1 (m.mcpServers.map (fun p => (p.1, renderConfig 2 p.2))))]
    = '\x7b' :: '\n' :: (indentChars 1
        ++ escapeString "mcpServers" ++ ':' :: ' ' ::
          renderObjFromChars 1 (m.mcpServers.map (fun p => (p.1, renderConfig 2 p.2)))
        ++ renderMoreFields 0 [] ++ '\n' :: indentChars 0 ++ ['\x7d']) from rfl] at h2
  cases h2

theorem parseMcp_marshal (m : McpJson) (hwf : McpWF m) :
    parseMcpOrEmpty (marshalMcpJson m) = m := by
  rw [parseMcpOrEmpty, if_pos (marshal_ne m), unmarshal_marshal m hwf]

theorem mcpwf_nil : McpWF ⟨[]⟩ := by
  constructor
  · simp [SortedKeys]
  · simp

theorem foldlM_env_sorted : ∀ (fields : List (String × JVal))
    (acc : List (String × String)), SortedKeys acc →
    ∀ env', fields.foldlM (fun (acc : List (String × String)) (f : String × JVal) =>
      match f.2 with
      | JVal.jstr s => Except.ok (setKey f.1 s acc)
      | JVal.null => Except.ok (setKey f.1 "" acc)
      | _ => Except.error "cannot unmarshal element into string") acc = .ok env' →
    SortedKeys env' := by
  intro fields
  induction fields with
  | nil =>
    intro acc h env' he
    rw [List.foldlM_nil] at he
    cases he
    exact h
  | cons f t ih =>
    intro acc h env' he
    rw [List.foldlM_cons] at he
    obtain ⟨k, v⟩ := f
    cases v with
    | jstr s =>
      simp only [] at he
      rw [except_ok_bind] at he
      exact ih (setKey k s acc) (setKey_sorted k s acc h) env' he
    | null =>
      simp only [] at he
      rw [except_ok_bind] at he
      exact ih (setKey k "" acc) (setKey_sorted k "" acc h) env' he
    | jbool b => simp only [] at he; cases he
    | jnum l => simp only [] at he; cases he
    | jarr its => simp only [] at he; cases he
    | jobj fs => simp only [] at he; cases he

theorem decodeConfigField_env_sorted {c : McpServerConfig} {k : String} {v : JVal}
    {c' : McpServerConfig} (hs : SortedKeys c.env)
    (h : decodeConfigField c k v = .ok c') : SortedKeys c'.env := by
  delta decodeConfigField at h
  split at h
  · split at h
    · cases h; exact hs
    · cases h; exact hs
    · cases h
  · split at h
    · split at h
      · cases h; exact hs
      · cases h; exact hs
      · cases h
    · split at h
      · split at h
        · rename_i items
          cases hm : items.mapM (fun it =>
              match it with
              | JVal.jstr s => Except.ok s
              | JVal.null => Except.ok ""
              | _ => Except.error "cannot unmarshal element into string") with
          | ok xs =>
            rw [hm] at h
            simp only [Except.map] at h
            cases h
            exact hs
          | error e =>
            rw [hm] at h
            simp only [Except.map] at h
            cases h
        · cases h; exact hs
        · cases h
      · split at h
        · split at h
          · rename_i fields
            cases hm : fields.foldlM
                (fun (acc : List (String × String)) (f : String × JVal) =>
                  match f.2 with
                  | JVal.jstr s => Except.ok (setKey f.1 s acc)
                  | JVal.null => Except.ok (setKey f.1 "" acc)
                  | _ => Except.error "cannot unmarshal element into string") c.env with
            | ok env2 =>
              rw [hm] at h
              simp only [Except.map] at h
              cases h
              exact foldlM_env_sorted fields c.env hs env2 hm
            | error e =>
              rw [hm] at h
              simp only [Except.map] at h
              cases h
          · cases h
            simp [SortedKeys]
          · cases h
        · split at h
          · split at h
            · cases h; exact hs
            · cases h; exact hs
            · cases h
          · cases h
            exact hs

theorem foldlM_fields_env_sorted : ∀ (fields : List (String × JVal))
    (s : McpServerConfig), SortedKeys s.env →
    ∀ c', fields.foldlM (fun c f => decodeConfigField c f.1 f.2) s = .ok c' →
    SortedKeys c'.env := by
  intro fields
  induction fields with
  | nil =>
    intro s h c' he
    rw [List.foldlM_nil] at he
    cases he
    exact h
  | cons f t ih =>
    intro s h c' he
    rw [List.foldlM_cons] at he
    cases hm : decodeConfigField s f.1 f.2 with
    | ok mid =>
      rw [hm, except_ok_bind] at he
      exact ih mid (decodeConfigField_env_sorted h hm) c' he
    | error e =>
      rw [hm] at he
      cases he

theorem decodeConfig_env_sorted {v : JVal} {c' : McpServerConfig}
    (h : decodeConfig v = .ok c') : SortedKeys c'.env := by
  cases v with
  | null =>
    cases h
    simp [zeroConfig, SortedKeys]
  | jobj fields =>
    exact foldlM_fields_env_sorted fields zeroConfig (by simp [zeroConfig, SortedKeys])
      c' h
  | jbool b => cases h
  | jnum l => cases h
  | jstr s => cases h
  | jarr its => cases h

theorem decodeServers_wf : ∀ (fields : List (String × JVal))
    (acc : List (String × McpServerConfig)),
    SortedKeys acc → (∀ p ∈ acc, SortedKeys p.2.env) →
    ∀ m', decodeServers acc fields = .ok m' →
    SortedKeys m' ∧ ∀ p ∈ m', SortedKeys p.2.env := by
  intro fields
  induction fields with
  | nil =>
    intro acc h1 h2 m' he
    simp only [decodeServers] at he
    cases he
    exact ⟨h1, h2⟩
  | cons f t ih =>
    intro acc h1 h2 m' he
    obtain ⟨k, v⟩ := f
    simp only [decodeServers] at he
    cases hm : decodeConfig v with
    | error e =>
      rw [hm] at he
      cases he
    | ok cfg =>
      rw [hm] at he
      exact ih (setKey k cfg acc) (setKey_sorted k cfg acc h1)
        (fun p hp => by
          rcases mem_setKey k cfg acc p hp with h3 | h3
          · rw [h3]
            exact decodeConfig_env_sorted hm
          · exact h2 p h3) m' he

theorem go_wf : ∀ (fields : List (String × JVal)) (m : McpJson), McpWF m →
    ∀ m', decodeMcpJson.go m fields = .ok m' → McpWF m' := by
  intro fields
  induction fields with
  | nil =>
    intro m hwf m' he
    rw [decodeMcpJson.go.eq_def] at he
    dsimp only at he
    cases he
    exact hwf
  | cons f t ih =>
    intro m hwf m' he
    obtain ⟨k, v⟩ := f
    rw [decodeMcpJson.go.eq_def] at he
    dsimp only at he
    split at he
    · cases v with
      | null => exact ih ⟨[]⟩ mcpwf_nil m' he
      | jobj sfields =>
        simp only [] at he
        cases hm : decodeServers m.mcpServers sfields with
        | error e =>
          rw [hm] at he
          cases he
        | ok servers =>
          rw [hm] at he
          obtain ⟨hs1, hs2⟩ := decodeServers_wf sfields m.mcpServers hwf.1 hwf.2
            servers hm
          exact ih ⟨servers⟩ ⟨hs1, hs2⟩ m' he
      | jbool b => cases he
      | jnum l => cases he
      | jstr s => cases he
      | jarr its => cases he
    · exact ih m hwf m' he

theorem decodeMcpJson_wf {j : JVal} {m' : McpJson} (h : decodeMcpJson j = .ok m') :
    McpWF m' := by
  cases j with
  | null =>
    cases h
    exact mcpwf_nil
  | jobj fields =>
    simp only [decodeMcpJson] at h
    exact go_wf fields ⟨[]⟩ mcpwf_nil m' h
  | jbool b => cases h
  | jnum l => cases h
  | jstr s => cases h
  | jarr its => cases h

theorem parseMcpOrEmpty_wf (s : String) : McpWF (parseMcpOrEmpty s) := by
  rw [parseMcpOrEmpty]
  split
  · cases hu : unmarshalMcpJson s with
    | ok m2 =>
      simp only []
      simp only [unmarshalMcpJson] at hu
      cases hj : jsonParse s with
      | none =>
        rw [hj] at hu
        cases hu
      | some j =>
        rw [hj] at hu
        exact decodeMcpJson_wf hu
    | error e =>
      exact mcpwf_nil
  · exact mcpwf_nil

/-- C2: MCP-server file materialization is idempotent: for every non-nil MCP
spec and every starting file content, if buildMcpJSON produces a file, then
applying buildMcpJSON again with the same spec to that file reproduces it
exactly. -/
theorem buildMcpJSON_idempotent (mcp : Mcp) (existing out : String)
    (h : buildMcpJSON (some mcp) existing = .ok out) :
    buildMcpJSON (some mcp) out = .ok out := by
  simp only [buildMcpJSON] at h ⊢
  have hwfb := parseMcpOrEmpty_wf existing
  cases h
  have hwfM : McpWF ⟨mergeServers mcp.servers (parseMcpOrEmpty existing).mcpServers⟩ :=
    ⟨mergeServers_sorted mcp.servers _ hwfb.1,
     mergeServers_env_sorted mcp.servers _ hwfb.2⟩
  rw [parseMcp_marshal _ hwfM]
  rw [show (McpJson.mk (mergeServers mcp.servers
        (parseMcpOrEmpty existing).mcpServers)).mcpServers
      = mergeServers mcp.servers (parseMcpOrEmpty existing).mcpServers from rfl]
  rw [mergeServers_idem mcp.servers (parseMcpOrEmpty existing).mcpServers hwfb.1]

/-- Witness for C2: materializing the devplan stdio server into an empty file
produces a concrete document, and materializing again into that document
reproduces it unchanged. -/
theorem buildMcpJSON_idempotent_witness :
    buildMcpJSON (some ⟨[("devplan", some (.stdio "devplan mcp"))]⟩) ""
        = .ok "\x7b\n  \"mcpServers\": \x7b\n    \"devplan\": \x7b\n      \"type\": \"stdio\",\n      \"command\": \"devplan\",\n      \"args\": [\n        \"mcp\"\n      ]\n    \x7d\n  \x7d\n\x7d"
    ∧ buildMcpJSON (some ⟨[("devplan", some (.stdio "devplan mcp"))]⟩) "\x7b\n  \"mcpServers\": \x7b\n    \"devplan\": \x7b\n      \"type\": \"stdio\",\n      \"command\": \"devplan\",\n      \"args\": [\n        \"mcp\"\n      ]\n    \x7d\n  \x7d\n\x7d"
        = .ok "\x7b\n  \"mcpServers\": \x7b\n    \"devplan\": \x7b\n      \"type\": \"stdio\",\n      \"command\": \"devplan\",\n      \"args\": [\n        \"mcp\"\n      ]\n    \x7d\n  \x7d\n\x7d" :=
  ⟨rfl, buildMcpJSON_idempotent ⟨[("devplan", some (.stdio "devplan mcp"))]⟩ "" _ rfl⟩

end Adcp
